import Mathlib

/-!
# Olaf obstacle avoidance: `GoThroughHole`

A shallow embedding of `src/obstacle_avoidance/src/GoThroughHole.cpp`.

Numbers are elements of an arbitrary linearly ordered field `K` (exact
arithmetic: no rounding of `float`/`double`).  The two `<cmath>` functions whose
results are not rational, `std::sqrt` and `std::atan2`, are taken as a parameter
`Libm K`; the facts about them that a proof needs are collected in
`Libm.Exact`.  `std::pow(v, 2)` is `v ^ 2`.

The functions that lead to the target of `findHole` are embedded a second time, as
`Rounded.distance`, ..., `Rounded.findHole`, with the rounding of every operation made
explicit (`Arith K`).  `Arith.exact` gives back the exact embedding; `ieee` is IEEE 754
`float` and `double` arithmetic on the rational numbers.  Statements that hold only
without rounding say so, and the runs on which rounding changes the outcome are
evaluated with `ieee`.

Reading past the end of a `std::vector` (`back()` or `[0]` on an empty vector) is
undefined behaviour in C++; the embedding reports it as `Fault.emptyAccess`.
The `while` loop of `assignToWalls` has no iteration cap; the embedding runs it
on fuel and reports `Fault.outOfFuel` when the fuel is used up.
-/

namespace GoThroughHole

/-- The message type `geometry_msgs::Point32`. -/
structure Point32 (K : Type) where
  x : K
  y : K
  z : K
deriving DecidableEq

/-- The message type `geometry_msgs::Vector3`. -/
structure Vector3 (K : Type) where
  x : K
  y : K
  z : K
deriving DecidableEq

/-- The message type `geometry_msgs::Twist`. -/
structure Twist (K : Type) where
  linear : Vector3 K
  angular : Vector3 K
deriving DecidableEq

/-- The two `<cmath>` functions used by the node that are not field operations. -/
structure Libm (K : Type) where
  sqrt : K → K
  atan2 : K → K → K

/-- Ways in which a run of the embedded code fails to produce a value. -/
inductive Fault where
  | emptyAccess
  | outOfFuel
deriving DecidableEq

/-- The four output vectors of `assignToWalls`, passed by reference in the source. -/
structure Walls (K : Type) where
  wall1x : List K
  wall1y : List K
  wall2x : List K
  wall2y : List K
deriving DecidableEq

variable {K : Type} [LinearOrderedField K]

/-- The free function `distance` (lines 57-59). -/
def distance (m : Libm K) (point1 point2 : Point32 K) : K :=
  m.sqrt ((point1.x - point2.x) ^ 2 + (point1.y - point2.y) ^ 2 + (point1.z - point2.z) ^ 2)

/-- The `for` loop of lines 73-81: every point of the cloud is pushed to the back of
wall 1 when it is strictly nearer to `centroid1`, and to the back of wall 2 otherwise. -/
def assignPoints (m : Libm K) (centroid1 centroid2 : Point32 K) :
    List (Point32 K) → Walls K → Walls K
  | [], w => w
  | p :: ps, w =>
    if distance m p centroid1 < distance m p centroid2 then
      assignPoints m centroid1 centroid2 ps
        { w with wall1x := w.wall1x ++ [p.x], wall1y := w.wall1y ++ [p.y] }
    else
      assignPoints m centroid1 centroid2 ps
        { w with wall2x := w.wall2x ++ [p.x], wall2y := w.wall2y ++ [p.y] }

/-- The centroid loops (lines 83-92 and the accumulation of lines 121-122, 128-129):
starting from `(0, 0, 0)`, every member adds its coordinate divided by `wallx.size()`.
The loop index runs over `wallx` and reads `wally` at the same index; both vectors
always have the same length, so the members are read as the zipped list.  No quotient
and no sum is rounded here; `Rounded.recomputeCentroid` and `Rounded.wallCentroid` are
the two loops with the roundings of the source. -/
def recomputeCentroid (wallx wally : List K) : Point32 K :=
  (wallx.zip wally).foldl
    (fun c v => { c with x := c.x + v.1 / (wallx.length : K), y := c.y + v.2 / (wallx.length : K) })
    ⟨0, 0, 0⟩

/-- The `while` loop of `assignToWalls` (lines 67-93), on fuel.  `std::move` leaves
`wall1x`, `wall1y` empty, and `wall2x`, `wall2y` are cleared, so every pass assigns into
four empty vectors. -/
def assignLoop (m : Libm K) (cloud : List (Point32 K)) :
    Nat → Point32 K → Point32 K → List K → List K → Walls K → Except Fault (Walls K)
  | fuel, centroid1, centroid2, pre_wall1x, pre_wall1y, w =>
    if pre_wall1x ≠ w.wall1x ∨ pre_wall1y ≠ w.wall1y then
      match fuel with
      | 0 => .error .outOfFuel
      | fuel + 1 =>
        let w' := assignPoints m centroid1 centroid2 cloud ⟨[], [], [], []⟩
        assignLoop m cloud fuel
          (recomputeCentroid w'.wall1x w'.wall1y) (recomputeCentroid w'.wall2x w'.wall2y)
          w.wall1x w.wall1y w'
    else
      .ok w

/-- The method `GoThroughHole::assignToWalls` (lines 61-94).  The argument `w` holds the
contents of the four reference parameters on entry. -/
def assignToWalls (m : Libm K) (fuel : Nat) (cloud : List (Point32 K)) (w : Walls K) :
    Except Fault (Walls K) :=
  match cloud.getLast?, cloud.head? with
  | some centroid2, some centroid1 => assignLoop m cloud fuel centroid1 centroid2 [0] [0] w
  | _, _ => .error .emptyAccess

/-- The vectors `wall1`, `wall2` built in lines 115-130: value-initialised points
(`z = 0`) whose `x`, `y` are copied from the coordinate vectors. -/
def toPoints (wallx wally : List K) : List (Point32 K) :=
  (wallx.zip wally).map (fun v => ⟨v.1, v.2, 0⟩)

/-- The erase loops of lines 132-144: a point is erased when its distance to the
centroid is greater than the cutoff. -/
def eraseFar (m : Libm K) (centroid : Point32 K) (cutoff : K) :
    List (Point32 K) → List (Point32 K)
  | [] => []
  | p :: ps =>
    if distance m p centroid > cutoff then eraseFar m centroid cutoff ps
    else p :: eraseFar m centroid cutoff ps

/-- Lines 115-144 of `findHole`: the two walls as point vectors after the members
farther than `cutoff = 1` from their wall's centroid have been erased. -/
def retainedWalls (m : Libm K) (w : Walls K) : List (Point32 K) × List (Point32 K) :=
  (eraseFar m (recomputeCentroid w.wall1x w.wall1y) 1 (toPoints w.wall1x w.wall1y),
   eraseFar m (recomputeCentroid w.wall2x w.wall2y) 1 (toPoints w.wall2x w.wall2y))

/-- Lines 147-153 of `findHole`: the midpoint of `wall2[0]` and `wall1.back()`. -/
def holeCenter (wall1 wall2 : List (Point32 K)) : Except Fault (Point32 K) :=
  match wall2.head?, wall1.getLast? with
  | some p2, some p1 => .ok ⟨(p2.x + p1.x) / 2, (p2.y + p1.y) / 2, 0⟩
  | _, _ => .error .emptyAccess

/-- The method `GoThroughHole::findHole` (lines 104-154). -/
def findHole (m : Libm K) (fuel : Nat) (cloud : List (Point32 K)) : Except Fault (Point32 K) :=
  match assignToWalls m fuel cloud ⟨[], [], [], []⟩ with
  | .ok w => holeCenter (retainedWalls m w).1 (retainedWalls m w).2
  | .error e => .error e

/-- The method `GoThroughHole::stopOlaf` (lines 163-172). -/
def stopOlaf : Twist K :=
  ⟨⟨0, 0, 0⟩, ⟨0, 0, 0⟩⟩

/-- The method `GoThroughHole::moveToHole` (lines 174-189). -/
def moveToHole (m : Libm K) (center : Point32 K) : Twist K :=
  let command : Twist K :=
    ⟨⟨m.sqrt (center.x ^ 2 + center.y ^ 2), 0, 0⟩, ⟨0, 0, m.atan2 center.y center.x⟩⟩
  if m.sqrt (center.x ^ 2 + center.y ^ 2) < 1 / 1000 then stopOlaf else command

/-- The body of `subscriberCallBack` after the cloud has been projected (lines 32-33):
the command handed to the publisher. -/
def commandFor (m : Libm K) (fuel : Nat) (cloud : List (Point32 K)) : Except Fault (Twist K) :=
  match findHole m fuel cloud with
  | .ok center => .ok (moveToHole m center)
  | .error e => .error e

/-- What exact arithmetic says about `std::sqrt` and `std::atan2`: the square root of a
non-negative number is the non-negative number whose square it is, and a point on the
non-negative `x` axis has bearing `0`. -/
structure Libm.Exact (m : Libm K) : Prop where
  sqrt_nonneg : ∀ v : K, 0 ≤ v → 0 ≤ m.sqrt v
  sqrt_mul_self : ∀ v : K, 0 ≤ v → m.sqrt v * m.sqrt v = v
  atan2_zero : ∀ x : K, 0 ≤ x → m.atan2 0 x = 0

/-- The assignment test of line 74 as a Boolean selector on points. -/
def nearer (m : Libm K) (centroid1 centroid2 : Point32 K) (p : Point32 K) : Bool :=
  decide (distance m p centroid1 < distance m p centroid2)

/-- One pass of the assignment loop into four empty vectors. -/
def assignStep (m : Libm K) (centroid1 centroid2 : Point32 K) (cloud : List (Point32 K)) :
    Walls K :=
  assignPoints m centroid1 centroid2 cloud ⟨[], [], [], []⟩

/-- The coordinate vectors of the points of `l` that a selector sends to wall 1
(selector `true`) and to wall 2 (selector `false`). -/
def wallsOf (sel : Point32 K → Bool) (l : List (Point32 K)) : Walls K :=
  ⟨(l.filter sel).map Point32.x, (l.filter sel).map Point32.y,
   (l.filter (fun p => !sel p)).map Point32.x, (l.filter (fun p => !sel p)).map Point32.y⟩

/-- A point with its `z` coordinate replaced by `0`, as `findHole` rebuilds it. -/
def flatten (p : Point32 K) : Point32 K :=
  ⟨p.x, p.y, 0⟩

/-- The planar squared distance of a point from a centroid. -/
def sqDist2 (p c : Point32 K) : K :=
  (p.x - c.x) ^ 2 + (p.y - c.y) ^ 2

/-- The sum of the planar squared distances of the members of a wall from a point. -/
def cost (c : Point32 K) (l : List (Point32 K)) : K :=
  (l.map (fun p => sqDist2 p c)).sum

/-- The centroid that the centroid loop computes for a wall given as a list of points. -/
def centroidOf (l : List (Point32 K)) : Point32 K :=
  recomputeCentroid (l.map Point32.x) (l.map Point32.y)

/-- The two-means potential of a pair of walls: each member is charged its planar
squared distance from the centroid of its own wall. -/
def potential (s : List (Point32 K) × List (Point32 K)) : K :=
  cost (centroidOf s.1) s.1 + cost (centroidOf s.2) s.2

/-- The order in which the passes of the loop descend: the potential drops, or it stays
and wall 1 loses members. -/
def below (s' s : List (Point32 K) × List (Point32 K)) : Prop :=
  potential s' < potential s ∨ (potential s' = potential s ∧ s'.1.length < s.1.length)

/-- The pair of walls, as lists of cloud points, that a selector picks. -/
def stateOf (sel : Point32 K → Bool) (cloud : List (Point32 K)) :
    List (Point32 K) × List (Point32 K) :=
  (cloud.filter sel, cloud.filter (fun p => !sel p))

instance below_strict : IsStrictOrder (List (Point32 K) × List (Point32 K)) below where
  irrefl := by
    intro a h
    rcases h with h | ⟨_, h⟩
    · exact lt_irrefl _ h
    · exact lt_irrefl _ h
  trans := by
    intro a b c hab hbc
    rcases hab with h1 | ⟨h1, h1'⟩ <;> rcases hbc with h2 | ⟨h2, h2'⟩
    · exact Or.inl (h1.trans h2)
    · exact Or.inl (h2 ▸ h1)
    · exact Or.inl (h1 ▸ h2)
    · exact Or.inr ⟨h1.trans h2, h1'.trans h2'⟩

/-- The mirror image of a point in the forward (`x`) axis of the robot. -/
def mirror (p : Point32 K) : Point32 K :=
  ⟨p.x, -p.y, p.z⟩

/-- The selector of the points that lie strictly on the side of the forward axis on which
`side` lies. -/
def sameSide (side : K) (p : Point32 K) : Bool :=
  decide (0 < p.y * side)

/-- The method `GoThroughHole::findBoundaryPoint` (lines 95-103): with `left` false the
point is read at index `0` of the two coordinate vectors, with `left` true at their
`back()`. -/
def findBoundaryPoint (wallx wally : List K) (left : Bool) : Except Fault (Point32 K) :=
  if !left then
    match wallx.head?, wally.head? with
    | some x, some y => .ok ⟨x, y, 0⟩
    | _, _ => .error .emptyAccess
  else
    match wallx.getLast?, wally.getLast? with
    | some x, some y => .ok ⟨x, y, 0⟩
    | _, _ => .error .emptyAccess

/-- The local variables `gaps`, `element`, `gapExists` of `findGaps`. -/
structure GapScan where
  gaps : List Nat
  element : Nat
  gapExists : Bool
deriving DecidableEq

/-- The body of the loop of `findGaps` (lines 43-52) for one reading; a reading is `none`
when `std::isnan` holds for it.  The counters are `int` in the source and never negative;
they are natural numbers here. -/
def findGapsStep {α : Type} (s : GapScan) (range : Option α) : GapScan :=
  if range.isNone then
    let s1 : GapScan :=
      if !s.gapExists then ⟨s.gaps ++ [0], s.element + 1, s.gapExists⟩ else s
    ⟨s1.gaps.set s1.element (s1.gaps.getD s1.element 0 + 1), s1.element, true⟩
  else
    { s with gapExists := false }

/-- The method `GoThroughHole::findGaps` (lines 37-55) on the `ranges` of the scan. -/
def findGaps {α : Type} (ranges : List (Option α)) : List Nat :=
  (ranges.foldl findGapsStep ⟨[0], 0, true⟩).gaps

/-- The centroid loops with every division checked: the result is `none` as soon as a
division by `wallx.size()` is made while that size is zero. -/
def recomputeCentroidChecked (wallx wally : List K) : Option (Point32 K) :=
  (wallx.zip wally).foldlM
    (fun c v =>
      if (wallx.length : K) = 0 then none
      else some { c with x := c.x + v.1 / (wallx.length : K),
                         y := c.y + v.2 / (wallx.length : K) })
    ⟨0, 0, 0⟩

/-- The lengths of the maximal runs of consecutive NaN readings of a scan, in scan order,
as the specification words them: a NaN reading starts a run, the run takes in the NaN
readings that follow it, and the count goes on after the run. -/
def nanRuns {α : Type} : List (Option α) → List Nat
  | [] => []
  | some _ :: rs => nanRuns rs
  | none :: rs =>
    ((rs.takeWhile Option.isNone).length + 1) :: nanRuns (rs.dropWhile Option.isNone)
termination_by l => l.length
decreasing_by
  · simp
  · simp only [List.length_cons]
    exact Nat.lt_succ_of_le (List.dropWhile_sublist _).length_le

/-- The centroids with which pass `k + 1` of the `while` loop of `assignToWalls` assigns
the points, were the loop to run that long: the seeds for the first pass, and after that
the centroids recomputed from the walls of the pass before. -/
def passCentroids (m : Libm K) (cloud : List (Point32 K)) (first last : Point32 K) :
    Nat → Point32 K × Point32 K
  | 0 => (first, last)
  | k + 1 =>
    let c := passCentroids m cloud first last k
    let w := assignPoints m c.1 c.2 cloud ⟨[], [], [], []⟩
    (recomputeCentroid w.wall1x w.wall1y, recomputeCentroid w.wall2x w.wall2y)

/-- The walls at the end of pass `k + 1` of the `while` loop of `assignToWalls`. -/
def passWalls (m : Libm K) (cloud : List (Point32 K)) (first last : Point32 K) (k : Nat) :
    Walls K :=
  assignPoints m (passCentroids m cloud first last k).1 (passCentroids m cloud first last k).2
    cloud ⟨[], [], [], []⟩

/-! ## Rounded arithmetic

The same functions with the conversions of the C++ types made explicit.  Coordinates of
`geometry_msgs::Point32` are `float`; the wall vectors, the result of `std::pow`, of
`std::sqrt` and of `distance`, and the cutoff are `double`.  An `Arith K` gives the rounding
to each of the two formats and the double-precision square root; every operation below is
followed by the rounding of the type in which C++ evaluates it (`float` operands are
evaluated in `float`, mixed operands in `double`).  With `Arith.exact` nothing is rounded and
the functions are those of the exact embedding above; `ieee` is IEEE 754 binary32 and
binary64 arithmetic, round to nearest with ties to even, on the rational numbers, with an
unbounded exponent range (no overflow, no subnormal numbers, no NaN). -/

/-- The number of binary digits of a natural number, on fuel. -/
def bitLength : Nat → Nat → Nat
  | 0, _ => 0
  | fuel + 1, n => if n = 0 then 0 else bitLength fuel (n / 2) + 1

/-- The quotient `num / den` of two natural numbers rounded to the nearest natural number,
a tie to the even one. -/
def roundQuotient (num den : Nat) : Nat :=
  if 2 * (num % den) < den then num / den
  else if den < 2 * (num % den) then num / den + 1
  else if (num / den) % 2 = 0 then num / den
  else num / den + 1

/-- The positive rational number `a / b` rounded to `p` significant binary digits, to
nearest with ties to even: with `s` the exponent for which `a / (b * 2 ^ s)` lies in
`[2 ^ (p - 1), 2 ^ p)`, the result is that quotient rounded to a natural number, times
`2 ^ s`. -/
def roundPos (p a b : Nat) : ℚ :=
  let s : Int := (bitLength a a : Int) - (bitLength b b : Int) - (p : Int)
  let s : Int := if 2 ^ p * (b * 2 ^ s.toNat) ≤ a * 2 ^ (-s).toNat then s + 1 else s
  (roundQuotient (a * 2 ^ (-s).toNat) (b * 2 ^ s.toNat) * 2 ^ s.toNat : Nat) /
    (2 ^ (-s).toNat : Nat)

/-- A rational number rounded to `p` significant binary digits, to nearest with ties to
even: the conversion to `float` for `p = 24` and to `double` for `p = 53`. -/
def roundTo (p : Nat) (q : ℚ) : ℚ :=
  if q = 0 then 0
  else if 0 < q then roundPos p q.num.natAbs q.den
  else -roundPos p q.num.natAbs q.den

/-- The digits of the integer square root of `n` below position `k`, added to `r`. -/
def isqrtAux (n : Nat) : Nat → Nat → Nat
  | 0, r => r
  | k + 1, r =>
    if (r + 2 ^ k) * (r + 2 ^ k) ≤ n then isqrtAux n k (r + 2 ^ k) else isqrtAux n k r

/-- The integer square root: the greatest `t` with `t * t ≤ n`. -/
def isqrt (n : Nat) : Nat :=
  isqrtAux n (bitLength n n / 2 + 1) 0

/-- The square root of a rational number correctly rounded to `p` significant binary
digits (`std::sqrt` on `double` for `p = 53`).  With `t` the integer part of
`sqrt q * 2 ^ k`, which has more than `p + 1` digits, the root is `t / 2 ^ k` when that is
exact and lies strictly between `t` and `t + 1` otherwise, where it rounds as
`t + 1 / 2` does.  The argument is a sum of squares in the program; a negative argument
(NaN in C++) gives `0` here. -/
def sqrtTo (p : Nat) (q : ℚ) : ℚ :=
  if q ≤ 0 then 0
  else
    let a := q.num.natAbs
    let b := q.den
    let k := p + 2 + bitLength b b
    let t := isqrt (a * 4 ^ k / b)
    if t * t * b = a * 4 ^ k then roundPos p t (2 ^ k)
    else roundPos p (2 * t + 1) (2 ^ (k + 1))

/-- The floating-point arithmetic of the machine: the rounding of a number to `float`, the
rounding to `double`, and `std::sqrt` on `double`. -/
structure Arith (K : Type) where
  single : K → K
  double : K → K
  sqrt : K → K

/-- Exact arithmetic: no operation is rounded, and the square root is that of `m`. -/
def Arith.exact (m : Libm K) : Arith K :=
  ⟨id, id, m.sqrt⟩

/-- IEEE 754 arithmetic on the rational numbers: binary32 `float`, binary64 `double`. -/
def ieee : Arith ℚ :=
  ⟨roundTo 24, roundTo 53, sqrtTo 53⟩

deriving instance DecidableEq for Except

/-- The free function `distance` (lines 57-59) with its roundings: each difference of two
`float` coordinates is a `float`; `std::pow (float, int)` converts to `double` and returns
a `double`; the sum and the square root are `double`. -/
def Rounded.distance (a : Arith K) (point1 point2 : Point32 K) : K :=
  a.sqrt (a.double (a.double (a.double (a.single (point1.x - point2.x) ^ 2) +
    a.double (a.single (point1.y - point2.y) ^ 2)) +
    a.double (a.single (point1.z - point2.z) ^ 2)))

/-- The `for` loop of lines 73-81 with the rounded `distance`.  Pushing a `float`
coordinate to a vector of `double` converts it exactly. -/
def Rounded.assignPoints (a : Arith K) (centroid1 centroid2 : Point32 K) :
    List (Point32 K) → Walls K → Walls K
  | [], w => w
  | p :: ps, w =>
    if distance a p centroid1 < distance a p centroid2 then
      assignPoints a centroid1 centroid2 ps
        { w with wall1x := w.wall1x ++ [p.x], wall1y := w.wall1y ++ [p.y] }
    else
      assignPoints a centroid1 centroid2 ps
        { w with wall2x := w.wall2x ++ [p.x], wall2y := w.wall2y ++ [p.y] }

/-- The centroid loops of lines 83-92 with their roundings: the member is a `double` and
`wallx.size()` converts to `double`, so the quotient is a `double`; the `float` coordinate
of the centroid converts to `double` for the sum, and the sum is stored as a `float`. -/
def Rounded.recomputeCentroid (a : Arith K) (wallx wally : List K) : Point32 K :=
  (wallx.zip wally).foldl
    (fun c v => { c with
      x := a.single (a.double (c.x + a.double (v.1 / a.double (wallx.length : K)))),
      y := a.single (a.double (c.y + a.double (v.2 / a.double (wallx.length : K)))) })
    ⟨0, 0, 0⟩

/-- The `while` loop of `assignToWalls` (lines 67-93), on fuel, with rounded arithmetic. -/
def Rounded.assignLoop (a : Arith K) (cloud : List (Point32 K)) :
    Nat → Point32 K → Point32 K → List K → List K → Walls K → Except Fault (Walls K)
  | fuel, centroid1, centroid2, pre_wall1x, pre_wall1y, w =>
    if pre_wall1x ≠ w.wall1x ∨ pre_wall1y ≠ w.wall1y then
      match fuel with
      | 0 => .error .outOfFuel
      | fuel + 1 =>
        let w' := assignPoints a centroid1 centroid2 cloud ⟨[], [], [], []⟩
        assignLoop a cloud fuel
          (recomputeCentroid a w'.wall1x w'.wall1y) (recomputeCentroid a w'.wall2x w'.wall2y)
          w.wall1x w.wall1y w'
    else
      .ok w

/-- The method `GoThroughHole::assignToWalls` (lines 61-94) with rounded arithmetic. -/
def Rounded.assignToWalls (a : Arith K) (fuel : Nat) (cloud : List (Point32 K))
    (w : Walls K) : Except Fault (Walls K) :=
  match cloud.getLast?, cloud.head? with
  | some centroid2, some centroid1 => assignLoop a cloud fuel centroid1 centroid2 [0] [0] w
  | _, _ => .error .emptyAccess

/-- The vectors `wall1`, `wall2` of lines 115-130: the `double` coordinates are stored in
the `float` fields of value-initialised points. -/
def Rounded.toPoints (a : Arith K) (wallx wally : List K) : List (Point32 K) :=
  (wallx.zip wally).map (fun v => ⟨a.single v.1, a.single v.2, 0⟩)

/-- The centroid accumulation of lines 121-122 and 128-129 with its roundings: the member
`wall1[i].x` is a `float` and `wall1x.size()` converts to `float`, so the quotient and the
sum are `float`. -/
def Rounded.wallCentroid (a : Arith K) (wallx wally : List K) : Point32 K :=
  (wallx.zip wally).foldl
    (fun c v => { c with
      x := a.single (c.x + a.single (a.single v.1 / a.single (wallx.length : K))),
      y := a.single (c.y + a.single (a.single v.2 / a.single (wallx.length : K))) })
    ⟨0, 0, 0⟩

/-- The erase loops of lines 132-144 with the rounded `distance`. -/
def Rounded.eraseFar (a : Arith K) (centroid : Point32 K) (cutoff : K) :
    List (Point32 K) → List (Point32 K)
  | [] => []
  | p :: ps =>
    if distance a p centroid > cutoff then eraseFar a centroid cutoff ps
    else p :: eraseFar a centroid cutoff ps

/-- Lines 115-144 of `findHole` with rounded arithmetic: the two walls after the members
farther than `cutoff = 1` from the centroid of their wall have been erased. -/
def Rounded.retainedWalls (a : Arith K) (w : Walls K) :
    List (Point32 K) × List (Point32 K) :=
  (eraseFar a (wallCentroid a w.wall1x w.wall1y) 1 (toPoints a w.wall1x w.wall1y),
   eraseFar a (wallCentroid a w.wall2x w.wall2y) 1 (toPoints a w.wall2x w.wall2y))

/-- Lines 147-153 of `findHole` with their roundings: the sum of two `float` coordinates
and its half are `float`. -/
def Rounded.holeCenter (a : Arith K) (wall1 wall2 : List (Point32 K)) :
    Except Fault (Point32 K) :=
  match wall2.head?, wall1.getLast? with
  | some p2, some p1 =>
    .ok ⟨a.single (a.single (p2.x + p1.x) / a.single 2),
         a.single (a.single (p2.y + p1.y) / a.single 2), 0⟩
  | _, _ => .error .emptyAccess

/-- The method `GoThroughHole::findHole` (lines 104-154) with rounded arithmetic. -/
def Rounded.findHole (a : Arith K) (fuel : Nat) (cloud : List (Point32 K)) :
    Except Fault (Point32 K) :=
  match assignToWalls a fuel cloud ⟨[], [], [], []⟩ with
  | .ok w => holeCenter a (retainedWalls a w).1 (retainedWalls a w).2
  | .error e => .error e

/-! ## Assignment pass and centroid loops -/

/-- The assignment loop appends to each wall the coordinates of the points that the test of line 74 sends to it, in scan order. -/
theorem assignPoints_eq (m : Libm K) (c1 c2 : Point32 K) (ps : List (Point32 K)) (w : Walls K) :
    assignPoints m c1 c2 ps w =
      ⟨w.wall1x ++ (ps.filter (nearer m c1 c2)).map Point32.x,
       w.wall1y ++ (ps.filter (nearer m c1 c2)).map Point32.y,
       w.wall2x ++ (ps.filter (fun p => !nearer m c1 c2 p)).map Point32.x,
       w.wall2y ++ (ps.filter (fun p => !nearer m c1 c2 p)).map Point32.y⟩ := by
  induction ps generalizing w with
  | nil => simp [assignPoints]
  | cons p ps ih =>
    by_cases h : distance m p c1 < distance m p c2
    · simp [assignPoints, h, ih, nearer]
    · simp [assignPoints, h, ih, nearer]

theorem assignStep_eq (m : Libm K) (c1 c2 : Point32 K) (cloud : List (Point32 K)) :
    assignStep m c1 c2 cloud = wallsOf (nearer m c1 c2) cloud := by
  simp [assignStep, assignPoints_eq, wallsOf]

theorem toPoints_map (l : List (Point32 K)) :
    toPoints (l.map Point32.x) (l.map Point32.y) = l.map flatten := by
  induction l with
  | nil => simp [toPoints]
  | cons p ps ih =>
    simp only [toPoints] at ih
    simp [toPoints, ih, flatten]

/-! ## The convergence loop -/

theorem assignLoop_zero (m : Libm K) (cloud : List (Point32 K)) (c1 c2 : Point32 K)
    (px py : List K) (w : Walls K) :
    assignLoop m cloud 0 c1 c2 px py w =
      if px ≠ w.wall1x ∨ py ≠ w.wall1y then .error .outOfFuel else .ok w := by
  rw [assignLoop]

theorem assignLoop_succ (m : Libm K) (cloud : List (Point32 K)) (fuel : Nat) (c1 c2 : Point32 K)
    (px py : List K) (w : Walls K) :
    assignLoop m cloud (fuel + 1) c1 c2 px py w =
      if px ≠ w.wall1x ∨ py ≠ w.wall1y then
        assignLoop m cloud fuel
          (recomputeCentroid (assignStep m c1 c2 cloud).wall1x (assignStep m c1 c2 cloud).wall1y)
          (recomputeCentroid (assignStep m c1 c2 cloud).wall2x (assignStep m c1 c2 cloud).wall2y)
          w.wall1x w.wall1y (assignStep m c1 c2 cloud)
      else .ok w := by
  rw [assignLoop]; rfl

theorem assignLoop_ok_cases (m : Libm K) (cloud : List (Point32 K)) :
    ∀ (fuel : Nat) (c1 c2 : Point32 K) (px py : List K) (w w' : Walls K),
      assignLoop m cloud fuel c1 c2 px py w = .ok w' →
        w' = w ∨ ∃ d1 d2, w' = assignStep m d1 d2 cloud := by
  intro fuel
  induction fuel with
  | zero =>
    intro c1 c2 px py w w' h
    rw [assignLoop_zero] at h
    split at h
    · cases h
    · left; cases h; rfl
  | succ n ih =>
    intro c1 c2 px py w w' h
    rw [assignLoop_succ] at h
    split at h
    · right
      rcases ih _ _ _ _ _ _ h with h1 | h1
      · exact ⟨c1, c2, h1⟩
      · exact h1
    · left; cases h; rfl


/-- Every result of `assignToWalls` on empty output vectors is the outcome of an assignment pass. -/
theorem assignToWalls_ok_cases (m : Libm K) (fuel : Nat) (cloud : List (Point32 K))
    (w : Walls K) (h : assignToWalls m fuel cloud ⟨[], [], [], []⟩ = .ok w) :
    ∃ d1 d2, w = assignStep m d1 d2 cloud := by
  unfold assignToWalls at h
  split at h
  · cases fuel with
    | zero => simp [assignLoop_zero] at h
    | succ n =>
      rw [assignLoop_succ] at h
      simp only [ne_eq, List.cons_ne_self, not_false_eq_true, true_or, if_true] at h
      rcases assignLoop_ok_cases m cloud _ _ _ _ _ _ _ h with h1 | h1
      · exact ⟨_, _, h1⟩
      · exact h1
  · cases h

/-! ## The two-means potential -/

theorem foldl_centroid (n : K) (l : List (Point32 K)) (c : Point32 K) :
    ((l.map Point32.x).zip (l.map Point32.y)).foldl
        (fun c v => { c with x := c.x + v.1 / n, y := c.y + v.2 / n }) c =
      ⟨c.x + (l.map Point32.x).sum / n, c.y + (l.map Point32.y).sum / n, c.z⟩ := by
  induction l generalizing c with
  | nil => simp
  | cons p ps ih => simp [ih, add_div, add_assoc]

/-- The centroid loop computes the arithmetic mean of the members, and `(0, 0, 0)` for an empty wall. -/
theorem centroidOf_eq (l : List (Point32 K)) :
    centroidOf l =
      ⟨(l.map Point32.x).sum / (l.length : K), (l.map Point32.y).sum / (l.length : K), 0⟩ := by
  unfold centroidOf recomputeCentroid
  simp only [List.length_map]
  rw [foldl_centroid]
  simp

theorem sqrt_lt_sqrt_iff {m : Libm K} (hm : m.Exact) {a b : K} (ha : 0 ≤ a) (hb : 0 ≤ b) :
    m.sqrt a < m.sqrt b ↔ a < b := by
  have h1 := hm.sqrt_mul_self a ha
  have h2 := hm.sqrt_mul_self b hb
  have h3 := hm.sqrt_nonneg a ha
  have h4 := hm.sqrt_nonneg b hb
  constructor
  · intro h
    rw [← h1, ← h2]
    exact mul_self_lt_mul_self h3 h
  · intro h
    rw [← h1, ← h2] at h
    exact lt_of_mul_self_lt_mul_self₀ h4 h

theorem nearer_planar {m : Libm K} (hm : m.Exact) (c1 c2 p : Point32 K) (hz : c1.z = c2.z) :
    nearer m c1 c2 p = decide (sqDist2 p c1 < sqDist2 p c2) := by
  unfold nearer distance sqDist2
  apply decide_eq_decide.mpr
  rw [sqrt_lt_sqrt_iff hm (by positivity) (by positivity), hz]
  simp

theorem sum_ite_filter {α : Type} (sel : α → Bool) (f g : α → K) (l : List α) :
    (l.map (fun p => if sel p then f p else g p)).sum =
      ((l.filter sel).map f).sum + ((l.filter (fun p => !sel p)).map g).sum := by
  induction l with
  | nil => simp
  | cons p ps ih =>
    cases h : sel p
    · simp [h, ih]; ring
    · simp [h, ih]; ring

theorem sum_sq_sub (l : List K) (c : K) :
    (l.map (fun v => (v - c) ^ 2)).sum =
      (l.map (fun v => v ^ 2)).sum - 2 * c * l.sum + (l.length : K) * c ^ 2 := by
  induction l with
  | nil => simp
  | cons v vs ih => simp [ih]; ring

theorem sum_sq_mean_le (l : List K) (c : K) :
    (l.map (fun v => (v - l.sum / (l.length : K)) ^ 2)).sum ≤ (l.map (fun v => (v - c) ^ 2)).sum := by
  rcases Nat.eq_zero_or_pos l.length with h0 | hpos
  · rw [List.length_eq_zero] at h0
    subst h0
    simp
  · rw [sum_sq_sub, sum_sq_sub]
    have hn : (0 : K) < (l.length : K) := by exact_mod_cast hpos
    have key : l.sum = (l.length : K) * (l.sum / (l.length : K)) := by field_simp
    generalize (l.length : K) = n at *
    generalize l.sum / n = μ at *
    generalize l.sum = S at *
    subst key
    nlinarith [mul_nonneg hn.le (sq_nonneg (c - μ))]

theorem cost_eq (c : Point32 K) (l : List (Point32 K)) :
    cost c l = ((l.map Point32.x).map (fun v => (v - c.x) ^ 2)).sum +
      ((l.map Point32.y).map (fun v => (v - c.y) ^ 2)).sum := by
  unfold cost sqDist2
  induction l with
  | nil => simp
  | cons p ps ih => simp [ih]; ring

/-- The mean of a wall minimises the sum of the squared distances of its members. -/
theorem cost_centroid_le (c : Point32 K) (l : List (Point32 K)) :
    cost (centroidOf l) l ≤ cost c l := by
  rw [cost_eq, cost_eq, centroidOf_eq]
  have hx := sum_sq_mean_le (l.map Point32.x) c.x
  have hy := sum_sq_mean_le (l.map Point32.y) c.y
  simp only [List.length_map] at hx hy
  exact add_le_add hx hy


theorem split_cost (sel : Point32 K → Bool) (c1 c2 : Point32 K) (cloud : List (Point32 K)) :
    cost c1 (cloud.filter sel) + cost c2 (cloud.filter (fun p => !sel p)) =
      (cloud.map (fun p => if sel p then sqDist2 p c1 else sqDist2 p c2)).sum :=
  (sum_ite_filter sel _ _ cloud).symm

theorem nearest_le {m : Libm K} (hm : m.Exact) (c1 c2 : Point32 K) (hz : c1.z = c2.z)
    (sel : Point32 K → Bool) (p : Point32 K) :
    (if nearer m c1 c2 p then sqDist2 p c1 else sqDist2 p c2) ≤
      (if sel p then sqDist2 p c1 else sqDist2 p c2) := by
  rw [nearer_planar hm c1 c2 p hz]
  by_cases h : sqDist2 p c1 < sqDist2 p c2
  · cases sel p <;> simp [h, h.le]
  · cases sel p <;> simp [h, not_lt.mp h]

theorem nearest_lt {m : Libm K} (hm : m.Exact) (c1 c2 : Point32 K) (hz : c1.z = c2.z)
    (sel : Point32 K → Bool) (p : Point32 K) (h1 : nearer m c1 c2 p = true) (h2 : sel p = false) :
    (if nearer m c1 c2 p then sqDist2 p c1 else sqDist2 p c2) <
      (if sel p then sqDist2 p c1 else sqDist2 p c2) := by
  have h := h1
  rw [nearer_planar hm c1 c2 p hz] at h
  simpa [h1, h2] using h

theorem length_filter_lt_of_imp {α : Type} (l : List α) (p q : α → Bool)
    (himp : ∀ a ∈ l, p a = true → q a = true) (hne : l.filter p ≠ l.filter q) :
    (l.filter p).length < (l.filter q).length := by
  have h1 : l.filter p = (l.filter q).filter p := by
    rw [List.filter_filter]
    apply List.filter_congr
    intro a ha
    cases hp : p a
    · simp
    · simp [himp a ha hp]
  have hsub : List.Sublist (l.filter p) (l.filter q) := by
    rw [h1]; exact List.filter_sublist _
  rcases Nat.lt_or_ge (l.filter p).length (l.filter q).length with h | h
  · exact h
  · exact absurd (hsub.eq_of_length_le h) hne

/-- A pass that changes wall 1 descends in the order `below`. -/
theorem step_below {m : Libm K} (hm : m.Exact) (cloud : List (Point32 K))
    (sel : Point32 K → Bool)
    (hne : cloud.filter (nearer m (centroidOf (cloud.filter sel))
        (centroidOf (cloud.filter (fun p => !sel p)))) ≠ cloud.filter sel) :
    below (stateOf (nearer m (centroidOf (cloud.filter sel))
        (centroidOf (cloud.filter (fun p => !sel p)))) cloud) (stateOf sel cloud) := by
  set c1 := centroidOf (cloud.filter sel) with hc1
  set c2 := centroidOf (cloud.filter (fun p => !sel p)) with hc2
  have hz : c1.z = c2.z := by rw [hc1, hc2, centroidOf_eq, centroidOf_eq]
  set sel' := nearer m c1 c2 with hsel'
  have hA : potential (stateOf sel' cloud) ≤
      cost c1 (cloud.filter sel') + cost c2 (cloud.filter (fun p => !sel' p)) :=
    add_le_add (cost_centroid_le _ _) (cost_centroid_le _ _)
  have hB : cost c1 (cloud.filter sel') + cost c2 (cloud.filter (fun p => !sel' p)) ≤
      potential (stateOf sel cloud) := by
    show _ ≤ cost c1 (cloud.filter sel) + cost c2 (cloud.filter (fun p => !sel p))
    rw [split_cost, split_cost]
    exact List.sum_le_sum (fun p _ => nearest_le hm c1 c2 hz sel p)
  rcases lt_or_eq_of_le (hA.trans hB) with hlt | heq
  · exact Or.inl hlt
  · refine Or.inr ⟨heq, ?_⟩
    have hB' : cost c1 (cloud.filter sel') + cost c2 (cloud.filter (fun p => !sel' p)) =
        cost c1 (cloud.filter sel) + cost c2 (cloud.filter (fun p => !sel p)) :=
      le_antisymm hB (le_trans (le_of_eq heq.symm) hA)
    rw [split_cost, split_cost] at hB'
    have himp : ∀ p ∈ cloud, sel' p = true → sel p = true := by
      intro p hp h1
      by_contra h2
      have h2' : sel p = false := by simpa using h2
      have := List.sum_lt_sum (fun p => if sel' p then sqDist2 p c1 else sqDist2 p c2)
        (fun p => if sel p then sqDist2 p c1 else sqDist2 p c2)
        (fun p _ => nearest_le hm c1 c2 hz sel p) ⟨p, hp, nearest_lt hm c1 c2 hz sel p h1 h2'⟩
      exact absurd hB' this.ne
    exact length_filter_lt_of_imp cloud sel' sel himp hne

/-! ## Termination of the loop -/

/-- From the state reached after any pass, the loop returns with enough fuel. -/
theorem assignLoop_terminates_from {m : Libm K} (hm : m.Exact) (cloud : List (Point32 K))
    (sel : Point32 K → Bool) (px py : List K) :
    ∃ fuel w', assignLoop m cloud fuel (centroidOf (cloud.filter sel))
      (centroidOf (cloud.filter (fun p => !sel p))) px py (wallsOf sel cloud) = .ok w' := by
  have hfin : ({s | s ∈ cloud.sublists} ×ˢ {s | s ∈ cloud.sublists} :
      Set (List (Point32 K) × List (Point32 K))).Finite :=
    (List.finite_toSet _).prod (List.finite_toSet _)
  have hmem : ∀ sel : Point32 K → Bool, stateOf sel cloud ∈
      ({s | s ∈ cloud.sublists} ×ˢ {s | s ∈ cloud.sublists} :
        Set (List (Point32 K) × List (Point32 K))) := by
    intro sel
    simp [stateOf, Set.mem_prod]
  have hwf := hfin.wellFoundedOn (r := below)
  have key := hwf.induction (hmem sel)
    (P := fun s => ∀ sel : Point32 K → Bool, stateOf sel cloud = s → ∀ px py : List K,
      ∃ fuel w', assignLoop m cloud fuel (centroidOf (cloud.filter sel))
        (centroidOf (cloud.filter (fun p => !sel p))) px py (wallsOf sel cloud) = .ok w')
  refine key ?_ sel rfl px py
  intro y _ ih sel hy px py
  by_cases hexit : px ≠ (wallsOf sel cloud).wall1x ∨ py ≠ (wallsOf sel cloud).wall1y
  · set sel' := nearer m (centroidOf (cloud.filter sel))
      (centroidOf (cloud.filter (fun p => !sel p))) with hsel'
    by_cases heq : cloud.filter sel' = cloud.filter sel
    · refine ⟨1, wallsOf sel' cloud, ?_⟩
      rw [assignLoop_succ, if_pos hexit, assignLoop_zero, assignStep_eq, ← hsel']
      simp [wallsOf, heq]
    · have hb := step_below hm cloud sel heq
      obtain ⟨fuel, w', h⟩ := ih _ (hmem sel') (hy ▸ hb) sel' rfl
        (wallsOf sel cloud).wall1x (wallsOf sel cloud).wall1y
      refine ⟨fuel + 1, w', ?_⟩
      rw [assignLoop_succ, if_pos hexit, assignStep_eq]
      exact h
  · exact ⟨0, wallsOf sel cloud, by rw [assignLoop_zero, if_neg hexit]⟩

/-- With exact square roots `assignToWalls` returns on every non-empty cloud, given enough fuel. -/
theorem assignToWalls_terminates {m : Libm K} (hm : m.Exact) (cloud : List (Point32 K))
    (hne : cloud ≠ []) (w0 : Walls K) :
    ∃ fuel w, assignToWalls m fuel cloud w0 = .ok w := by
  obtain ⟨c2, h2⟩ : ∃ c2, cloud.getLast? = some c2 := by
    cases h : cloud.getLast? with
    | none => exact absurd (List.getLast?_eq_none_iff.mp h) hne
    | some c => exact ⟨c, rfl⟩
  obtain ⟨c1, h1⟩ : ∃ c1, cloud.head? = some c1 := by
    cases h : cloud.head? with
    | none => exact absurd (List.head?_eq_none_iff.mp h) hne
    | some c => exact ⟨c, rfl⟩
  unfold assignToWalls
  simp only [h1, h2]
  by_cases hexit : [0] ≠ w0.wall1x ∨ [0] ≠ w0.wall1y
  · obtain ⟨fuel, w', h⟩ := assignLoop_terminates_from hm cloud (nearer m c1 c2)
      w0.wall1x w0.wall1y
    refine ⟨fuel + 1, w', ?_⟩
    rw [assignLoop_succ, if_pos hexit, assignStep_eq]
    exact h
  · exact ⟨0, w0, by rw [assignLoop_zero, if_neg hexit]⟩

theorem assignLoop_fuel_succ (m : Libm K) (cloud : List (Point32 K)) :
    ∀ (fuel : Nat) (c1 c2 : Point32 K) (px py : List K) (w w' : Walls K),
      assignLoop m cloud fuel c1 c2 px py w = .ok w' →
        assignLoop m cloud (fuel + 1) c1 c2 px py w = .ok w' := by
  intro fuel
  induction fuel with
  | zero =>
    intro c1 c2 px py w w' h
    rw [assignLoop_zero] at h
    rw [assignLoop_succ]
    split at h
    · cases h
    · rename_i hc; rw [if_neg hc]; exact h
  | succ n ih =>
    intro c1 c2 px py w w' h
    rw [assignLoop_succ] at h
    rw [assignLoop_succ]
    split at h
    · rename_i hc; rw [if_pos hc]; exact ih _ _ _ _ _ _ h
    · rename_i hc; rw [if_neg hc]; exact h

theorem assignLoop_fuel_mono (m : Libm K) (cloud : List (Point32 K)) (fuel fuel' : Nat)
    (hle : fuel ≤ fuel') (c1 c2 : Point32 K) (px py : List K) (w w' : Walls K)
    (h : assignLoop m cloud fuel c1 c2 px py w = .ok w') :
    assignLoop m cloud fuel' c1 c2 px py w = .ok w' := by
  induction hle with
  | refl => exact h
  | step _ ih => exact assignLoop_fuel_succ m cloud _ _ _ _ _ _ _ ih

/-- A result of `assignToWalls` does not depend on the fuel: more fuel gives the same walls. -/
theorem assignToWalls_fuel_mono (m : Libm K) (cloud : List (Point32 K)) (fuel fuel' : Nat)
    (hle : fuel ≤ fuel') (w0 w : Walls K) (h : assignToWalls m fuel cloud w0 = .ok w) :
    assignToWalls m fuel' cloud w0 = .ok w := by
  unfold assignToWalls at h ⊢
  cases hl : cloud.getLast? with
  | none => simp [hl] at h
  | some c2 =>
    cases hh : cloud.head? with
    | none => simp [hl, hh] at h
    | some c1 =>
      simp only [hl, hh] at h ⊢
      exact assignLoop_fuel_mono m cloud fuel fuel' hle _ _ _ _ _ _ h

/-! ## The real numbers as an exact instance -/

/-- The real square root and the argument of `x + i y` satisfy `Libm.Exact`. -/
theorem real_exact : Libm.Exact (⟨Real.sqrt, fun y x => Complex.arg ⟨x, y⟩⟩ : Libm ℝ) where
  sqrt_nonneg := fun v _ => Real.sqrt_nonneg v
  sqrt_mul_self := fun _ hv => Real.mul_self_sqrt hv
  atan2_zero := fun _ hx => Complex.arg_ofReal_of_nonneg hx

/-! ## Exact square roots, erasing and the command -/

theorem sqrt_zero_eq {m : Libm K} (hm : m.Exact) : m.sqrt 0 = 0 := by
  have h := hm.sqrt_mul_self 0 le_rfl
  exact mul_self_eq_zero.mp h

theorem sqrt_one_eq {m : Libm K} (hm : m.Exact) : m.sqrt 1 = 1 := by
  have h := hm.sqrt_mul_self 1 zero_le_one
  have h0 := hm.sqrt_nonneg 1 zero_le_one
  nlinarith [sq_nonneg (m.sqrt 1 - 1), sq_nonneg (m.sqrt 1 + 1)]

theorem sqrt_sq_eq_abs {m : Libm K} (hm : m.Exact) (v : K) : m.sqrt (v ^ 2) = |v| := by
  have h := hm.sqrt_mul_self (v ^ 2) (sq_nonneg v)
  have h0 := hm.sqrt_nonneg (v ^ 2) (sq_nonneg v)
  have h1 : m.sqrt (v ^ 2) * m.sqrt (v ^ 2) = |v| * |v| := by rw [h, abs_mul_abs_self, sq]
  exact (mul_self_inj h0 (abs_nonneg v)).mp h1

theorem one_lt_sqrt_iff {m : Libm K} (hm : m.Exact) {v : K} (hv : 0 ≤ v) :
    1 < m.sqrt v ↔ 1 < v := by
  have h := sqrt_lt_sqrt_iff hm zero_le_one hv
  rwa [sqrt_one_eq hm] at h

theorem sqrt_le_one_iff {m : Libm K} (hm : m.Exact) {v : K} (hv : 0 ≤ v) :
    m.sqrt v ≤ 1 ↔ v ≤ 1 := by
  rw [← not_lt, ← not_lt, one_lt_sqrt_iff hm hv]

theorem eraseFar_eq_filter (m : Libm K) (c : Point32 K) (k : K) (l : List (Point32 K)) :
    eraseFar m c k l = l.filter (fun p => decide (distance m p c ≤ k)) := by
  induction l with
  | nil => simp [eraseFar]
  | cons p ps ih =>
    by_cases h : distance m p c > k
    · simp [eraseFar, h, ih, not_le.mpr h]
    · simp [eraseFar, h, ih, not_lt.mp h]

theorem recomputeCentroid_toPoints (xs ys : List K) (h : xs.length = ys.length) :
    recomputeCentroid xs ys =
      ⟨((toPoints xs ys).map Point32.x).sum / ((toPoints xs ys).length : K),
       ((toPoints xs ys).map Point32.y).sum / ((toPoints xs ys).length : K), 0⟩ := by
  have hx : (toPoints xs ys).map Point32.x = xs := by
    simp only [toPoints, List.map_map]
    have : (Point32.x ∘ fun v : K × K => (⟨v.1, v.2, 0⟩ : Point32 K)) = Prod.fst := rfl
    rw [this, List.map_fst_zip]; omega
  have hy : (toPoints xs ys).map Point32.y = ys := by
    simp only [toPoints, List.map_map]
    have : (Point32.y ∘ fun v : K × K => (⟨v.1, v.2, 0⟩ : Point32 K)) = Prod.snd := rfl
    rw [this, List.map_snd_zip]; omega
  have hl : (toPoints xs ys).length = xs.length := by simp [toPoints, h]
  have := centroidOf_eq (toPoints xs ys)
  unfold centroidOf at this
  rw [hx, hy] at this
  rw [this, hx, hy]

theorem moveToHole_of_lt (m : Libm K) (center : Point32 K)
    (h : m.sqrt (center.x ^ 2 + center.y ^ 2) < 1 / 1000) :
    moveToHole m center = stopOlaf := by
  unfold moveToHole
  exact if_pos h

theorem moveToHole_of_not_lt (m : Libm K) (center : Point32 K)
    (h : ¬ m.sqrt (center.x ^ 2 + center.y ^ 2) < 1 / 1000) :
    moveToHole m center =
      ⟨⟨m.sqrt (center.x ^ 2 + center.y ^ 2), 0, 0⟩, ⟨0, 0, m.atan2 center.y center.x⟩⟩ := by
  unfold moveToHole
  exact if_neg h

theorem distance_lt_distance_iff {m : Libm K} (hm : m.Exact) (p c1 c2 : Point32 K) :
    distance m p c1 < distance m p c2 ↔
      (p.x - c1.x) ^ 2 + (p.y - c1.y) ^ 2 + (p.z - c1.z) ^ 2 <
        (p.x - c2.x) ^ 2 + (p.y - c2.y) ^ 2 + (p.z - c2.z) ^ 2 :=
  sqrt_lt_sqrt_iff hm (by positivity) (by positivity)

theorem one_lt_distance_iff {m : Libm K} (hm : m.Exact) (p c : Point32 K) :
    1 < distance m p c ↔ 1 < (p.x - c.x) ^ 2 + (p.y - c.y) ^ 2 + (p.z - c.z) ^ 2 :=
  one_lt_sqrt_iff hm (by positivity)

theorem distance_le_one_iff {m : Libm K} (hm : m.Exact) (p c : Point32 K) :
    distance m p c ≤ 1 ↔ (p.x - c.x) ^ 2 + (p.y - c.y) ^ 2 + (p.z - c.z) ^ 2 ≤ 1 :=
  sqrt_le_one_iff hm (by positivity)

theorem assignToWalls_lengths (m : Libm K) (fuel : Nat) (cloud : List (Point32 K))
    (w : Walls K) (h : assignToWalls m fuel cloud ⟨[], [], [], []⟩ = .ok w) :
    w.wall1x.length = w.wall1y.length ∧ w.wall2x.length = w.wall2y.length := by
  obtain ⟨d1, d2, rfl⟩ := assignToWalls_ok_cases m fuel cloud w h
  simp [assignStep_eq, wallsOf]

theorem holeCenter_ok_iff (wall1 wall2 : List (Point32 K)) :
    (∃ t, holeCenter wall1 wall2 = .ok t) ↔ wall1 ≠ [] ∧ wall2 ≠ [] := by
  unfold holeCenter
  cases h2 : wall2.head? with
  | none =>
    have : wall2 = [] := List.head?_eq_none_iff.mp h2
    simp [this]
  | some p2 =>
    have hw2 : wall2 ≠ [] := by
      intro h; rw [h] at h2; simp at h2
    cases h1 : wall1.getLast? with
    | none =>
      have : wall1 = [] := List.getLast?_eq_none_iff.mp h1
      simp [this]
    | some p1 =>
      have hw1 : wall1 ≠ [] := by
        intro h; rw [h] at h1; simp at h1
      simp [hw1, hw2]

theorem holeCenter_nil_left (wall2 : List (Point32 K)) :
    holeCenter [] wall2 = .error .emptyAccess := by
  cases wall2 <;> rfl

theorem findHole_of_ok (m : Libm K) (fuel : Nat) (cloud : List (Point32 K)) (w : Walls K)
    (h : assignToWalls m fuel cloud ⟨[], [], [], []⟩ = .ok w) :
    findHole m fuel cloud = holeCenter (retainedWalls m w).1 (retainedWalls m w).2 := by
  unfold findHole
  rw [h]

theorem retainedWalls_wallsOf (m : Libm K) (sel : Point32 K → Bool) (cloud : List (Point32 K)) :
    retainedWalls m (wallsOf sel cloud) =
      ((cloud.filter (fun p => sel p && decide (distance m (flatten p)
          (centroidOf (cloud.filter sel)) ≤ 1))).map flatten,
       (cloud.filter (fun p => !sel p && decide (distance m (flatten p)
          (centroidOf (cloud.filter (fun p => !sel p))) ≤ 1))).map flatten) := by
  unfold retainedWalls
  simp only [wallsOf, toPoints_map, eraseFar_eq_filter, List.filter_map, List.filter_filter,
    centroidOf]
  refine Prod.ext ?_ ?_
  · simp only
    congr 1
    apply List.filter_congr
    intro p _
    simp [Bool.and_comm]
  · simp only
    congr 1
    apply List.filter_congr
    intro p _
    simp [Bool.and_comm]

theorem holeCenter_map_flatten (l1 l2 : List (Point32 K)) (p1 p2 : Point32 K)
    (h1 : l1.getLast? = some p1) (h2 : l2.head? = some p2) :
    holeCenter (l1.map flatten) (l2.map flatten) =
      .ok ⟨(p2.x + p1.x) / 2, (p2.y + p1.y) / 2, 0⟩ := by
  unfold holeCenter
  rw [List.head?_map, List.getLast?_map, h1, h2]
  rfl

/-! ## Fixed points of the assignment pass -/

theorem filter_agree_of_map_eq {α β : Type} (f : α → β) (l : List α) (p q : α → Bool)
    (hq : ∀ a b, f a = f b → q a = q b)
    (h : (l.filter q).map f = (l.filter p).map f) : ∀ a ∈ l, p a = q a := by
  have himp : ∀ a ∈ l, p a = true → q a = true := by
    intro a ha hpa
    have hmem : f a ∈ (l.filter p).map f :=
      List.mem_map_of_mem f (List.mem_filter.mpr ⟨ha, hpa⟩)
    rw [← h] at hmem
    obtain ⟨b, hb, hfb⟩ := List.mem_map.mp hmem
    rw [← hq b a hfb]
    exact (List.mem_filter.mp hb).2
  have hlen : (l.filter p).length = (l.filter q).length := by
    have := congrArg List.length h
    simpa using this.symm
  have heq : l.filter p = l.filter q := by
    by_contra hne
    exact absurd hlen (length_filter_lt_of_imp l p q himp hne).ne
  intro a ha
  cases hpa : p a
  · cases hqa : q a
    · rfl
    · have : a ∈ l.filter p := heq ▸ List.mem_filter.mpr ⟨ha, hqa⟩
      rw [(List.mem_filter.mp this).2] at hpa
      cases hpa
  · exact (himp a ha hpa).symm

theorem map_xy_eq {α : Type} {l1 l2 : List (Point32 α)}
    (hx : l1.map Point32.x = l2.map Point32.x) (hy : l1.map Point32.y = l2.map Point32.y) :
    l1.map (fun p => (p.x, p.y)) = l2.map (fun p => (p.x, p.y)) := by
  induction l1 generalizing l2 with
  | nil =>
    cases l2 with
    | nil => rfl
    | cons b l2 => simp at hx
  | cons a l1 ih =>
    cases l2 with
    | nil => simp at hx
    | cons b l2 =>
      simp only [List.map_cons, List.cons.injEq] at hx hy ⊢
      exact ⟨Prod.ext hx.1 hy.1, ih hx.2 hy.2⟩

theorem recompute_wallsOf (sel : Point32 K → Bool) (cloud : List (Point32 K)) :
    recomputeCentroid (wallsOf sel cloud).wall1x (wallsOf sel cloud).wall1y =
        centroidOf (cloud.filter sel) ∧
      recomputeCentroid (wallsOf sel cloud).wall2x (wallsOf sel cloud).wall2y =
        centroidOf (cloud.filter (fun p => !sel p)) :=
  ⟨rfl, rfl⟩

/-- When a pass reproduces the coordinates of wall 1 of the pass before, it reproduces both walls and both centroids, and its outcome is a fixed point of the assignment pass. -/
theorem assignStep_fixed_of_wall1_eq {m : Libm K} (hm : m.Exact) (cloud : List (Point32 K))
    (sel : Point32 K → Bool)
    (hx : (wallsOf (nearer m (centroidOf (cloud.filter sel))
        (centroidOf (cloud.filter (fun p => !sel p)))) cloud).wall1x = (wallsOf sel cloud).wall1x)
    (hy : (wallsOf (nearer m (centroidOf (cloud.filter sel))
        (centroidOf (cloud.filter (fun p => !sel p)))) cloud).wall1y = (wallsOf sel cloud).wall1y) :
    assignStep m
        (recomputeCentroid
          (wallsOf (nearer m (centroidOf (cloud.filter sel))
            (centroidOf (cloud.filter (fun p => !sel p)))) cloud).wall1x
          (wallsOf (nearer m (centroidOf (cloud.filter sel))
            (centroidOf (cloud.filter (fun p => !sel p)))) cloud).wall1y)
        (recomputeCentroid
          (wallsOf (nearer m (centroidOf (cloud.filter sel))
            (centroidOf (cloud.filter (fun p => !sel p)))) cloud).wall2x
          (wallsOf (nearer m (centroidOf (cloud.filter sel))
            (centroidOf (cloud.filter (fun p => !sel p)))) cloud).wall2y) cloud =
      wallsOf (nearer m (centroidOf (cloud.filter sel))
        (centroidOf (cloud.filter (fun p => !sel p)))) cloud := by
  set c1 := centroidOf (cloud.filter sel) with hc1
  set c2 := centroidOf (cloud.filter (fun p => !sel p)) with hc2
  have hz : c1.z = c2.z := by rw [hc1, hc2, centroidOf_eq, centroidOf_eq]
  set sel' := nearer m c1 c2 with hsel'
  have hdet : ∀ a b : Point32 K, (fun p : Point32 K => (p.x, p.y)) a =
      (fun p : Point32 K => (p.x, p.y)) b → sel' a = sel' b := by
    intro a b hab
    simp only [Prod.mk.injEq] at hab
    rw [hsel', nearer_planar hm c1 c2 a hz, nearer_planar hm c1 c2 b hz]
    unfold sqDist2
    rw [hab.1, hab.2]
  have hagree : ∀ a ∈ cloud, sel a = sel' a :=
    filter_agree_of_map_eq (fun p : Point32 K => (p.x, p.y)) cloud sel sel' hdet
      (map_xy_eq hx hy)
  have h1 : cloud.filter sel' = cloud.filter sel :=
    List.filter_congr (fun a ha => (hagree a ha).symm)
  have h2 : cloud.filter (fun p => !sel' p) = cloud.filter (fun p => !sel p) :=
    List.filter_congr (fun a ha => by rw [hagree a ha])
  rw [(recompute_wallsOf sel' cloud).1, (recompute_wallsOf sel' cloud).2, h1, h2, assignStep_eq]

/-- When the loop exits on a comparison with the wall 1 of an earlier pass, the walls it returns are a fixed point of the assignment pass. -/
theorem assignLoop_fixed {m : Libm K} (hm : m.Exact) (cloud : List (Point32 K)) :
    ∀ (fuel : Nat) (sel0 : Point32 K → Bool) (w' : Walls K),
      assignLoop m cloud fuel
          (centroidOf (cloud.filter (nearer m (centroidOf (cloud.filter sel0))
            (centroidOf (cloud.filter (fun p => !sel0 p))))))
          (centroidOf (cloud.filter (fun p => !nearer m (centroidOf (cloud.filter sel0))
            (centroidOf (cloud.filter (fun p => !sel0 p))) p)))
          (wallsOf sel0 cloud).wall1x (wallsOf sel0 cloud).wall1y
          (wallsOf (nearer m (centroidOf (cloud.filter sel0))
            (centroidOf (cloud.filter (fun p => !sel0 p)))) cloud) = .ok w' →
      assignStep m (recomputeCentroid w'.wall1x w'.wall1y)
        (recomputeCentroid w'.wall2x w'.wall2y) cloud = w' := by
  intro fuel
  induction fuel with
  | zero =>
    intro sel0 w' h
    rw [assignLoop_zero] at h
    split at h
    · cases h
    · rename_i hc
      injection h with h
      subst h
      rw [not_or, not_not, not_not] at hc
      exact assignStep_fixed_of_wall1_eq hm cloud sel0 hc.1.symm hc.2.symm
  | succ n ih =>
    intro sel0 w' h
    rw [assignLoop_succ] at h
    split at h
    · rw [assignStep_eq] at h
      exact ih _ w' h
    · rename_i hc
      injection h with h
      subst h
      rw [not_or, not_not, not_not] at hc
      exact assignStep_fixed_of_wall1_eq hm cloud sel0 hc.1.symm hc.2.symm

theorem nearer_first {m : Libm K} (hm : m.Exact) (a b : Point32 K) (hab : a ≠ b) :
    nearer m a b a = true := by
  unfold nearer
  rw [decide_eq_true_iff, distance_lt_distance_iff hm]
  have hne : a.x - b.x ≠ 0 ∨ a.y - b.y ≠ 0 ∨ a.z - b.z ≠ 0 := by
    by_contra hcon
    simp only [not_or, not_not, sub_eq_zero] at hcon
    apply hab
    cases a; cases b
    simp only [Point32.mk.injEq]
    exact ⟨hcon.1, hcon.2.1, hcon.2.2⟩
  simp only [sub_self]
  rcases hne with h | h | h
  · have := pow_pos (abs_pos.mpr h) 2
    rw [sq_abs] at this
    nlinarith [sq_nonneg (a.y - b.y), sq_nonneg (a.z - b.z)]
  · have := pow_pos (abs_pos.mpr h) 2
    rw [sq_abs] at this
    nlinarith [sq_nonneg (a.x - b.x), sq_nonneg (a.z - b.z)]
  · have := pow_pos (abs_pos.mpr h) 2
    rw [sq_abs] at this
    nlinarith [sq_nonneg (a.x - b.x), sq_nonneg (a.y - b.y)]

/-- When the first and the last point of the cloud differ, the first pass puts the first point in wall 1, the loop runs at least two passes, and the walls it returns are a fixed point of the assignment pass. -/
theorem assignToWalls_fixed_of_ends_ne {m : Libm K} (hm : m.Exact) (fuel : Nat)
    (cloud : List (Point32 K)) (w : Walls K) (a b : Point32 K)
    (ha : cloud.head? = some a) (hb : cloud.getLast? = some b) (hab : a ≠ b)
    (h : assignToWalls m fuel cloud ⟨[], [], [], []⟩ = .ok w) :
    assignStep m (recomputeCentroid w.wall1x w.wall1y)
      (recomputeCentroid w.wall2x w.wall2y) cloud = w := by
  unfold assignToWalls at h
  simp only [ha, hb] at h
  cases fuel with
  | zero => simp [assignLoop_zero] at h
  | succ n =>
    rw [assignLoop_succ] at h
    simp only [ne_eq, List.cons_ne_self, not_false_eq_true, true_or, if_true] at h
    rw [assignStep_eq] at h
    have hmem : a ∈ cloud.filter (nearer m a b) :=
      List.mem_filter.mpr ⟨List.mem_of_mem_head? ha, nearer_first hm a b hab⟩
    have hne : ([] : List K) ≠ (wallsOf (nearer m a b) cloud).wall1x := by
      intro hnil
      have : (cloud.filter (nearer m a b)) = [] := by
        simpa [wallsOf] using hnil.symm
      rw [this] at hmem
      cases hmem
    cases n with
    | zero =>
      rw [assignLoop_zero, if_pos (Or.inl hne)] at h
      cases h
    | succ k =>
      rw [assignLoop_succ, if_pos (Or.inl hne), assignStep_eq] at h
      exact assignLoop_fixed hm cloud k (nearer m a b) w h

/-! ## Clouds that are mirror-symmetric in scan order -/

theorem filter_of_reverse_eq_map {α : Type} (μ : α → α) (l : List α) (P Q : α → Bool)
    (hsym : l.reverse = l.map μ) (hPQ : ∀ a ∈ l, Q (μ a) = P a) :
    l.filter Q = ((l.filter P).map μ).reverse := by
  have hl : l = (l.map μ).reverse := by rw [← hsym, List.reverse_reverse]
  calc l.filter Q = ((l.map μ).reverse).filter Q := by rw [← hl]
    _ = ((l.filter (Q ∘ μ)).map μ).reverse := by rw [List.filter_reverse, List.filter_map]
    _ = ((l.filter P).map μ).reverse := by
      congr 2
      exact List.filter_congr (fun a ha => hPQ a ha)

theorem nearer_mirror {m : Libm K} (hm : m.Exact) (c p : Point32 K) :
    nearer m c ⟨c.x, -c.y, c.z⟩ p = sameSide c.y p := by
  unfold nearer sameSide
  apply decide_eq_decide.mpr
  rw [distance_lt_distance_iff hm]
  dsimp only
  constructor <;> intro h <;> nlinarith

theorem sameSide_mirror (side : K) (p : Point32 K) (hp : p.y ≠ 0) (hs : side ≠ 0) :
    (!sameSide side (mirror p)) = sameSide side p := by
  unfold sameSide mirror
  dsimp only
  have hne : p.y * side ≠ 0 := mul_ne_zero hp hs
  rcases lt_or_gt_of_ne hne with h | h
  · have h1 : ¬ 0 < p.y * side := not_lt.mpr h.le
    have h2 : 0 < -p.y * side := by linarith
    simp [h1, h2, h]
  · have h2 : ¬ 0 < -p.y * side := by
      intro h'; linarith
    simp [h, h2, h.le]

theorem sameSide_congr (s1 s2 : K) (h : 0 < s1 * s2) (p : Point32 K) :
    sameSide s1 p = sameSide s2 p := by
  unfold sameSide
  apply decide_eq_decide.mpr
  have h1 : s1 ≠ 0 := left_ne_zero_of_mul h.ne'
  have h2 : s2 ≠ 0 := right_ne_zero_of_mul h.ne'
  have e : (p.y * s1) * (p.y * s2) = p.y ^ 2 * (s1 * s2) := by ring
  constructor
  · intro h3
    by_contra h4
    have h5 : p.y * s2 ≤ 0 := not_lt.mp h4
    have hpy : p.y ≠ 0 := left_ne_zero_of_mul h3.ne'
    have h6 : 0 < p.y ^ 2 * (s1 * s2) := mul_pos (sq_pos_of_ne_zero hpy) h
    have h7 : (p.y * s1) * (p.y * s2) ≤ 0 := mul_nonpos_of_nonneg_of_nonpos h3.le h5
    rw [e] at h7
    exact absurd h6 (not_lt.mpr h7)
  · intro h3
    by_contra h4
    have h5 : p.y * s1 ≤ 0 := not_lt.mp h4
    have hpy : p.y ≠ 0 := left_ne_zero_of_mul h3.ne'
    have h6 : 0 < p.y ^ 2 * (s1 * s2) := mul_pos (sq_pos_of_ne_zero hpy) h
    have h7 : (p.y * s1) * (p.y * s2) ≤ 0 := mul_nonpos_of_nonpos_of_nonneg h5 h3.le
    rw [e] at h7
    exact absurd h6 (not_lt.mpr h7)

theorem centroidOf_mirror_reverse (l : List (Point32 K)) :
    centroidOf ((l.map mirror).reverse) = ⟨(centroidOf l).x, -(centroidOf l).y, 0⟩ := by
  rw [centroidOf_eq, centroidOf_eq]
  have hx : (((l.map mirror).reverse).map Point32.x).sum = (l.map Point32.x).sum := by
    rw [List.map_reverse, List.sum_reverse, List.map_map]
    rfl
  have hy : (((l.map mirror).reverse).map Point32.y).sum = -(l.map Point32.y).sum := by
    rw [List.map_reverse, List.sum_reverse, List.map_map]
    clear hx
    induction l with
    | nil => simp
    | cons p ps ih => simp [ih, mirror]; ring
  rw [hx, hy]
  simp [neg_div]

theorem centroidOf_sameSide_pos (side : K) (l : List (Point32 K))
    (hne : l.filter (sameSide side) ≠ []) :
    0 < (centroidOf (l.filter (sameSide side))).y * side := by
  rw [centroidOf_eq]
  simp only
  have hlen : (0 : K) < ((l.filter (sameSide side)).length : K) := by
    exact_mod_cast List.length_pos.mpr hne
  have hsum : 0 < ((l.filter (sameSide side)).map (fun p => p.y * side)).sum := by
    apply List.sum_pos
    · intro v hv
      obtain ⟨p, hp, rfl⟩ := List.mem_map.mp hv
      have := (List.mem_filter.mp hp).2
      simpa [sameSide] using this
    · simpa using hne
  have hmul : ((l.filter (sameSide side)).map (fun p => p.y * side)).sum =
      ((l.filter (sameSide side)).map Point32.y).sum * side := by
    induction (l.filter (sameSide side)) with
    | nil => simp
    | cons p ps ih => simp [ih]; ring
  rw [hmul] at hsum
  rw [div_mul_eq_mul_div]
  exact div_pos hsum hlen


theorem assignLoop_of_eq (m : Libm K) (cloud : List (Point32 K)) (fuel : Nat)
    (c1 c2 : Point32 K) (w : Walls K) :
    assignLoop m cloud fuel c1 c2 w.wall1x w.wall1y w = .ok w := by
  cases fuel with
  | zero => rw [assignLoop_zero]; simp
  | succ n => rw [assignLoop_succ]; simp

theorem getLast?_of_symmetric {cloud : List (Point32 K)} {a : Point32 K}
    (ha : cloud.head? = some a) (hsym : cloud.reverse = cloud.map mirror) :
    cloud.getLast? = some (mirror a) := by
  rw [← List.head?_reverse, hsym, List.head?_map, ha]
  rfl

/-- On a cloud that is mirror-symmetric in scan order with no point on the axis, the loop returns after two passes with wall 1 the points on the side of the first point. -/
theorem assignToWalls_symmetric {m : Libm K} (hm : m.Exact) (cloud : List (Point32 K))
    (a : Point32 K) (ha : cloud.head? = some a) (hsym : cloud.reverse = cloud.map mirror)
    (hoff : ∀ p ∈ cloud, p.y ≠ 0) (fuel : Nat) (w : Walls K)
    (h : assignToWalls m fuel cloud ⟨[], [], [], []⟩ = .ok w) :
    w = wallsOf (sameSide a.y) cloud := by
  have hb := getLast?_of_symmetric ha hsym
  have hamem : a ∈ cloud := List.mem_of_mem_head? ha
  have hay : a.y ≠ 0 := hoff a hamem
  have hsel1 : nearer m a (mirror a) = sameSide a.y := funext (nearer_mirror hm a)
  have hS : cloud.filter (sameSide a.y) ≠ [] := by
    intro hnil
    have : a ∈ cloud.filter (sameSide a.y) := by
      refine List.mem_filter.mpr ⟨hamem, ?_⟩
      simp only [sameSide, decide_eq_true_eq]
      exact mul_self_pos.mpr hay
    rw [hnil] at this
    cases this
  have hT : cloud.filter (fun p => !sameSide a.y p) =
      ((cloud.filter (sameSide a.y)).map mirror).reverse :=
    filter_of_reverse_eq_map mirror cloud (sameSide a.y) (fun p => !sameSide a.y p) hsym
      (fun p hp => sameSide_mirror a.y p (hoff p hp) hay)
  have hsel2 : nearer m (centroidOf (cloud.filter (sameSide a.y)))
      (centroidOf (cloud.filter (fun p => !sameSide a.y p))) = sameSide a.y := by
    funext p
    rw [hT, centroidOf_mirror_reverse]
    have hz : (centroidOf (cloud.filter (sameSide a.y))).z = 0 := by rw [centroidOf_eq]
    have hn := nearer_mirror hm (centroidOf (cloud.filter (sameSide a.y))) p
    rw [hz] at hn
    rw [hn]
    exact sameSide_congr _ _ (centroidOf_sameSide_pos a.y cloud hS) p
  unfold assignToWalls at h
  simp only [ha, hb] at h
  cases fuel with
  | zero => simp [assignLoop_zero] at h
  | succ n =>
    rw [assignLoop_succ] at h
    simp only [ne_eq, List.cons_ne_self, not_false_eq_true, true_or, if_true] at h
    rw [assignStep_eq, hsel1] at h
    have hne : ([] : List K) ≠ (wallsOf (sameSide a.y) cloud).wall1x := by
      intro hnil
      apply hS
      simpa [wallsOf] using hnil.symm
    cases n with
    | zero =>
      rw [assignLoop_zero, if_pos (Or.inl hne)] at h
      cases h
    | succ k =>
      rw [assignLoop_succ, if_pos (Or.inl hne), assignStep_eq,
        (recompute_wallsOf (sameSide a.y) cloud).1, (recompute_wallsOf (sameSide a.y) cloud).2,
        hsel2, assignLoop_of_eq] at h
      injection h with h
      exact h.symm


theorem distance_flatten_mirror (m : Libm K) (p c : Point32 K) :
    distance m (flatten (mirror p)) ⟨c.x, -c.y, 0⟩ = distance m (flatten p) ⟨c.x, c.y, 0⟩ := by
  unfold distance flatten mirror
  dsimp only
  congr 1
  ring

theorem findHole_target_of_symmetric {m : Libm K} (hm : m.Exact) (fuel : Nat)
    (cloud : List (Point32 K)) (t : Point32 K)
    (hsym : cloud.reverse = cloud.map mirror) (hoff : ∀ p ∈ cloud, p.y ≠ 0)
    (hfind : findHole m fuel cloud = .ok t) : t.y = 0 := by
  cases hw : assignToWalls m fuel cloud ⟨[], [], [], []⟩ with
  | error e =>
    unfold findHole at hfind
    rw [hw] at hfind
    cases hfind
  | ok w =>
    rw [findHole_of_ok m fuel cloud w hw] at hfind
    cases ha : cloud.head? with
    | none =>
      unfold assignToWalls at hw
      rw [ha] at hw
      cases hl : cloud.getLast? <;> rw [hl] at hw <;> cases hw
    | some a =>
      have hay : a.y ≠ 0 := hoff a (List.mem_of_mem_head? ha)
      have hwe := assignToWalls_symmetric hm cloud a ha hsym hoff fuel w hw
      subst hwe
      rw [retainedWalls_wallsOf] at hfind
      have hT : cloud.filter (fun p => !sameSide a.y p) =
          ((cloud.filter (sameSide a.y)).map mirror).reverse :=
        filter_of_reverse_eq_map mirror cloud (sameSide a.y) (fun p => !sameSide a.y p) hsym
          (fun p hp => sameSide_mirror a.y p (hoff p hp) hay)
      have hz : (centroidOf (cloud.filter (sameSide a.y))).z = 0 := by rw [centroidOf_eq]
      have hQ := filter_of_reverse_eq_map mirror cloud
        (fun p => sameSide a.y p && decide (distance m (flatten p)
          (centroidOf (cloud.filter (sameSide a.y))) ≤ 1))
        (fun p => !sameSide a.y p && decide (distance m (flatten p)
          (centroidOf (cloud.filter (fun p => !sameSide a.y p))) ≤ 1)) hsym
        (by
          intro p hp
          dsimp only
          rw [sameSide_mirror a.y p (hoff p hp) hay, hT, centroidOf_mirror_reverse,
            distance_flatten_mirror]
          have hc : (⟨(centroidOf (cloud.filter (sameSide a.y))).x,
              (centroidOf (cloud.filter (sameSide a.y))).y, 0⟩ : Point32 K) =
              centroidOf (cloud.filter (sameSide a.y)) := by
            rw [← hz]
          rw [hc])
      simp only at hfind
      rw [hQ] at hfind
      cases hq : (cloud.filter (fun p => sameSide a.y p && decide (distance m (flatten p)
          (centroidOf (cloud.filter (sameSide a.y))) ≤ 1))).getLast? with
      | none =>
        rw [List.getLast?_eq_none_iff.mp hq] at hfind
        simp only [List.map_nil] at hfind
        rw [holeCenter_nil_left] at hfind
        cases hfind
      | some q =>
        have h2 : (((cloud.filter (fun p => sameSide a.y p && decide (distance m (flatten p)
            (centroidOf (cloud.filter (sameSide a.y))) ≤ 1))).map mirror).reverse).head? =
            some (mirror q) := by
          rw [List.head?_reverse, List.getLast?_map, hq]
          rfl
        rw [holeCenter_map_flatten _ _ q (mirror q) hq h2] at hfind
        injection hfind with hfind
        rw [← hfind]
        simp [mirror]

theorem moveToHole_angular_of_on_axis {m : Libm K} (hm : m.Exact) (t : Point32 K)
    (hy : t.y = 0) (hx : -(1 / 1000) < t.x) : (moveToHole m t).angular.z = 0 := by
  by_cases h : m.sqrt (t.x ^ 2 + t.y ^ 2) < 1 / 1000
  · rw [moveToHole_of_lt m t h]
    rfl
  · rw [moveToHole_of_not_lt m t h]
    simp only
    rw [hy] at h ⊢
    apply hm.atan2_zero
    by_contra hneg
    apply h
    have habs : |t.x| = -t.x := abs_of_neg (not_le.mp hneg)
    rw [show t.x ^ 2 + (0 : K) ^ 2 = t.x ^ 2 by ring, sqrt_sq_eq_abs hm, habs]
    linarith

/-! ## Frame of the command, order of the walls, checked divisions -/

theorem foldlM_checked (n : K) (hn : n ≠ 0) (l : List (K × K)) (c : Point32 K) :
    l.foldlM (fun c v => if n = 0 then none
        else some ({ c with x := c.x + v.1 / n, y := c.y + v.2 / n } : Point32 K)) c =
      some (l.foldl (fun c v => { c with x := c.x + v.1 / n, y := c.y + v.2 / n }) c) := by
  induction l generalizing c with
  | nil => rfl
  | cons v vs ih =>
    rw [List.foldlM_cons, List.foldl_cons, if_neg hn]
    exact ih _

theorem toPoints_head? (xs ys : List K) :
    (toPoints xs ys).head? =
      match xs.head?, ys.head? with
      | some x, some y => some ⟨x, y, 0⟩
      | _, _ => none := by
  cases xs <;> cases ys <;> rfl

theorem zip_getLast? {α β : Type} (xs : List α) (ys : List β) (h : xs.length = ys.length) :
    (xs.zip ys).getLast? =
      match xs.getLast?, ys.getLast? with
      | some x, some y => some (x, y)
      | _, _ => none := by
  induction xs generalizing ys with
  | nil => cases ys <;> simp
  | cons a as ih =>
    cases ys with
    | nil => simp at h
    | cons b bs =>
      simp only [List.length_cons, Nat.add_right_cancel_iff] at h
      cases as with
      | nil =>
        cases bs with
        | nil => simp
        | cons c cs => simp at h
      | cons a2 as2 =>
        cases bs with
        | nil => simp at h
        | cons b2 bs2 =>
          have := ih (b2 :: bs2) h
          simp only [List.zip_cons_cons, List.getLast?_cons_cons] at this ⊢
          exact this

theorem toPoints_getLast? (xs ys : List K) (h : xs.length = ys.length) :
    (toPoints xs ys).getLast? =
      match xs.getLast?, ys.getLast? with
      | some x, some y => some ⟨x, y, 0⟩
      | _, _ => none := by
  unfold toPoints
  rw [List.getLast?_map, zip_getLast? xs ys h]
  cases xs.getLast? <;> cases ys.getLast? <;> rfl

/-! ## Runs of invalid readings -/

theorem nanRuns_nil {α : Type} : nanRuns ([] : List (Option α)) = [] := by
  rw [nanRuns]

theorem nanRuns_some {α : Type} (a : α) (rs : List (Option α)) :
    nanRuns (some a :: rs) = nanRuns rs := by
  rw [nanRuns]

theorem nanRuns_none {α : Type} (rs : List (Option α)) :
    nanRuns (none :: rs) =
      ((rs.takeWhile Option.isNone).length + 1) :: nanRuns (rs.dropWhile Option.isNone) := by
  rw [nanRuns]

theorem bump_last (l : List Nat) (g : Nat) :
    (l ++ [g]).set l.length ((l ++ [g]).getD l.length 0 + 1) = l ++ [g + 1] := by
  induction l with
  | nil => simp
  | cons a as ih =>
    simp only [List.cons_append, List.length_cons, List.set_cons_succ, List.getD_cons_succ]
    rw [ih]

theorem findGaps_fold {α : Type} (l : List (Option α)) :
    ∀ (gaps : List Nat) (g : Nat),
      (l.foldl findGapsStep ⟨gaps ++ [g], gaps.length, true⟩).gaps =
          gaps ++ [g + (l.takeWhile Option.isNone).length] ++
            nanRuns (l.dropWhile Option.isNone) ∧
      (l.foldl findGapsStep ⟨gaps ++ [g], gaps.length, false⟩).gaps =
          gaps ++ [g] ++ nanRuns l := by
  induction l with
  | nil =>
    intro gaps g
    simp [nanRuns_nil]
  | cons r rs ih =>
    intro gaps g
    cases r with
    | some a =>
      have h := (ih gaps g).2
      simp only [List.foldl_cons, findGapsStep, Option.isNone_some, Bool.false_eq_true,
        if_false, List.takeWhile_cons, List.dropWhile_cons, List.length_nil, Nat.add_zero,
        nanRuns_some]
      exact ⟨h, h⟩
    | none =>
      constructor
      · have h := (ih gaps (g + 1)).1
        simp only [List.foldl_cons, findGapsStep, Option.isNone_none, if_true,
          Bool.not_true, Bool.false_eq_true, if_false, List.takeWhile_cons,
          List.dropWhile_cons, List.length_cons]
        rw [bump_last, h]
        simp [Nat.add_assoc, Nat.add_comm]
      · have h := (ih (gaps ++ [g]) 1).1
        simp only [List.foldl_cons, findGapsStep, Option.isNone_none, if_true,
          Bool.not_false, nanRuns_none]
        rw [show gaps.length + 1 = (gaps ++ [g]).length by simp, bump_last, h]
        simp [Nat.add_comm]


theorem findGaps_eq_lead {α : Type} (ranges : List (Option α)) :
    findGaps ranges =
      (ranges.takeWhile Option.isNone).length :: nanRuns (ranges.dropWhile Option.isNone) := by
  have h := (findGaps_fold ranges [] 0).1
  simpa [findGaps] using h

theorem nanRuns_block {α : Type} (k : Nat) (a : α) (rest : List (Option α)) :
    nanRuns (List.replicate (k + 1) none ++ some a :: rest) = (k + 1) :: nanRuns rest := by
  have htake : ∀ n : Nat, (List.replicate n (none : Option α) ++ some a :: rest).takeWhile
      Option.isNone = List.replicate n none := by
    intro n
    induction n with
    | zero => simp
    | succ n ih => simp [List.replicate_succ, ih]
  have hdrop : ∀ n : Nat, (List.replicate n (none : Option α) ++ some a :: rest).dropWhile
      Option.isNone = some a :: rest := by
    intro n
    induction n with
    | zero => simp
    | succ n ih => simp [List.replicate_succ, ih]
  rw [List.replicate_succ, List.cons_append, nanRuns_none, htake, hdrop, nanRuns_some]
  simp

/-! ## Degenerate and empty clouds -/

/-- When no point of the cloud is strictly nearer to the first than to the last point, the
first pass leaves wall 1 empty and the loop returns after it. -/
theorem assignToWalls_of_no_nearer (m : Libm K) (fuel : Nat) (cloud : List (Point32 K))
    (first last : Point32 K) (h1 : cloud.head? = some first) (h2 : cloud.getLast? = some last)
    (hno : ∀ p ∈ cloud, ¬ distance m p first < distance m p last) :
    assignToWalls m (fuel + 1) cloud ⟨[], [], [], []⟩ =
      .ok ⟨[], [], cloud.map Point32.x, cloud.map Point32.y⟩ := by
  have hsel : cloud.filter (nearer m first last) = [] := by
    rw [List.filter_eq_nil_iff]
    intro p hp
    simpa [nearer] using hno p hp
  have hnot : cloud.filter (fun p => !nearer m first last p) = cloud := by
    rw [List.filter_eq_self]
    intro p hp
    simpa [nearer] using hno p hp
  have hw : assignStep m first last cloud =
      ⟨[], [], cloud.map Point32.x, cloud.map Point32.y⟩ := by
    rw [assignStep_eq]
    simp only [wallsOf, hsel, hnot, List.map_nil]
  unfold assignToWalls
  rw [h1, h2]
  simp only
  rw [assignLoop_succ]
  simp only [ne_eq, List.cons_ne_self, not_false_eq_true, true_or, if_true]
  rw [hw]
  exact assignLoop_of_eq m cloud fuel _ _ ⟨[], [], cloud.map Point32.x, cloud.map Point32.y⟩

theorem retainedWalls_nil_left (m : Libm K) (wall2x wall2y : List K) :
    (retainedWalls m ⟨[], [], wall2x, wall2y⟩).1 = [] := rfl

theorem assignToWalls_nil (m : Libm K) (fuel : Nat) (w : Walls K) :
    assignToWalls m fuel [] w = .error .emptyAccess := rfl

/-! ## Both walls stay inhabited -/

theorem sum_affine (α β γ : K) (l : List (Point32 K)) :
    (l.map (fun p => α * p.x + β * p.y + γ)).sum =
      (l.length : K) * (α * (centroidOf l).x + β * (centroidOf l).y + γ) := by
  rw [centroidOf_eq]
  simp only
  have hsum : (l.map (fun p => α * p.x + β * p.y + γ)).sum =
      α * (l.map Point32.x).sum + β * (l.map Point32.y).sum + (l.length : K) * γ := by
    induction l with
    | nil => simp
    | cons p ps ih => simp [ih]; ring
  rw [hsum]
  rcases Nat.eq_zero_or_pos l.length with h0 | hpos
  · rw [List.length_eq_zero] at h0
    subst h0
    simp
  · have hn : (l.length : K) ≠ 0 := by exact_mod_cast hpos.ne'
    field_simp
    ring

theorem sqDist2_sub (q c1 c2 : Point32 K) :
    sqDist2 q c1 - sqDist2 q c2 =
      (-2 * (c1.x - c2.x)) * q.x + (-2 * (c1.y - c2.y)) * q.y +
        (c1.x ^ 2 + c1.y ^ 2 - c2.x ^ 2 - c2.y ^ 2) := by
  unfold sqDist2
  ring

theorem sum_sqDist2_sub (c1 c2 : Point32 K) (l : List (Point32 K)) :
    (l.map (fun p => sqDist2 p c1 - sqDist2 p c2)).sum =
      (l.length : K) * (sqDist2 (centroidOf l) c1 - sqDist2 (centroidOf l) c2) := by
  rw [sqDist2_sub (centroidOf l) c1 c2, ← sum_affine]
  congr 1
  apply List.map_congr_left
  intro p _
  exact sqDist2_sub p c1 c2

theorem exists_neg_of_sum_neg {α : Type} (l : List α) (f : α → K)
    (h : (l.map f).sum < 0) : ∃ a ∈ l, f a < 0 := by
  by_contra hcon
  push_neg at hcon
  have : 0 ≤ (l.map f).sum := by
    apply List.sum_nonneg
    intro x hx
    obtain ⟨a, ha, rfl⟩ := List.mem_map.mp hx
    exact hcon a ha
  exact absurd h (not_lt.mpr this)

theorem sum_map_neg_eq {α : Type} (l : List α) (f : α → K) :
    (l.map (fun a => -f a)).sum = -(l.map f).sum := by
  induction l with
  | nil => simp
  | cons a as ih =>
    simp only [List.map_cons, List.sum_cons, ih]
    ring

theorem exists_pos_of_sum_pos {α : Type} (l : List α) (f : α → K)
    (h : 0 < (l.map f).sum) : ∃ a ∈ l, 0 < f a := by
  have hneg := sum_map_neg_eq l f
  obtain ⟨a, ha, hlt⟩ := exists_neg_of_sum_neg l (fun a => -f a) (by rw [hneg]; linarith)
  exact ⟨a, ha, by linarith⟩

/-- One pass keeps both walls inhabited: when the centroids `c1`, `c2` have the same `z`
and split the cloud into two non-empty walls, the centroids of those walls again split
the cloud into two non-empty walls. -/
theorem step_inhabited {m : Libm K} (hm : m.Exact) (cloud : List (Point32 K))
    (c1 c2 : Point32 K) (hz : c1.z = c2.z)
    (h1 : cloud.filter (nearer m c1 c2) ≠ [])
    (h2 : cloud.filter (fun p => !nearer m c1 c2 p) ≠ []) :
    cloud.filter (nearer m (centroidOf (cloud.filter (nearer m c1 c2)))
        (centroidOf (cloud.filter (fun p => !nearer m c1 c2 p)))) ≠ [] ∧
    cloud.filter (fun p => !nearer m (centroidOf (cloud.filter (nearer m c1 c2)))
        (centroidOf (cloud.filter (fun p => !nearer m c1 c2 p))) p) ≠ [] := by
  set W1 := cloud.filter (nearer m c1 c2) with hW1
  set W2 := cloud.filter (fun p => !nearer m c1 c2 p) with hW2
  set μ1 := centroidOf W1 with hμ1
  set μ2 := centroidOf W2 with hμ2
  have hμz : μ1.z = μ2.z := by rw [hμ1, hμ2, centroidOf_eq, centroidOf_eq]
  have hn1 : (0 : K) < (W1.length : K) := by exact_mod_cast List.length_pos.mpr h1
  have hn2 : (0 : K) < (W2.length : K) := by exact_mod_cast List.length_pos.mpr h2
  -- the old bisector separates the new centroids
  have hL1 : sqDist2 μ1 c1 - sqDist2 μ1 c2 < 0 := by
    have hs : (W1.map (fun p => sqDist2 p c1 - sqDist2 p c2)).sum < 0 := by
      have hneg := sum_map_neg_eq W1 (fun p => sqDist2 p c1 - sqDist2 p c2)
      have hpos : 0 < (W1.map (fun p => -(sqDist2 p c1 - sqDist2 p c2))).sum := by
        apply List.sum_pos
        · intro x hx
          obtain ⟨p, hp, rfl⟩ := List.mem_map.mp hx
          have hsel := (List.mem_filter.mp hp).2
          rw [nearer_planar hm c1 c2 p hz, decide_eq_true_iff] at hsel
          linarith
        · simpa using h1
      linarith
    rw [sum_sqDist2_sub] at hs
    by_contra hcon
    exact absurd hs (not_lt.mpr (mul_nonneg hn1.le (not_lt.mp hcon)))
  have hL2 : 0 ≤ sqDist2 μ2 c1 - sqDist2 μ2 c2 := by
    have hs : 0 ≤ (W2.map (fun p => sqDist2 p c1 - sqDist2 p c2)).sum := by
      apply List.sum_nonneg
      intro x hx
      obtain ⟨p, hp, rfl⟩ := List.mem_map.mp hx
      have hsel := (List.mem_filter.mp hp).2
      rw [nearer_planar hm c1 c2 p hz] at hsel
      simp only [Bool.not_eq_true', decide_eq_false_iff_not, not_lt] at hsel
      linarith
    rw [sum_sqDist2_sub] at hs
    by_contra hcon
    have := mul_neg_of_pos_of_neg hn2 (not_le.mp hcon)
    exact absurd hs (not_le.mpr this)
  have hD : 0 < sqDist2 μ1 μ2 := by
    by_contra hcon
    have h0 : sqDist2 μ1 μ2 = 0 := le_antisymm (not_lt.mp hcon) (by unfold sqDist2; positivity)
    unfold sqDist2 at h0
    have hx : μ1.x = μ2.x := by
      have : (μ1.x - μ2.x) ^ 2 = 0 := by nlinarith [sq_nonneg (μ1.x - μ2.x), sq_nonneg (μ1.y - μ2.y)]
      exact sub_eq_zero.mp (pow_eq_zero_iff (two_ne_zero) |>.mp this)
    have hy : μ1.y = μ2.y := by
      have : (μ1.y - μ2.y) ^ 2 = 0 := by nlinarith [sq_nonneg (μ1.x - μ2.x), sq_nonneg (μ1.y - μ2.y)]
      exact sub_eq_zero.mp (pow_eq_zero_iff (two_ne_zero) |>.mp this)
    have e : sqDist2 μ1 c1 - sqDist2 μ1 c2 = sqDist2 μ2 c1 - sqDist2 μ2 c2 := by
      unfold sqDist2; rw [hx, hy]
    linarith
  have hself1 : sqDist2 μ1 μ1 = 0 := by unfold sqDist2; ring
  have hself2 : sqDist2 μ2 μ2 = 0 := by unfold sqDist2; ring
  have hsymm : sqDist2 μ2 μ1 = sqDist2 μ1 μ2 := by unfold sqDist2; ring
  constructor
  · have hs : (W1.map (fun p => sqDist2 p μ1 - sqDist2 p μ2)).sum < 0 := by
      rw [sum_sqDist2_sub, ← hμ1, hself1]
      have := mul_pos hn1 hD
      linarith
    obtain ⟨p, hp, hlt⟩ := exists_neg_of_sum_neg W1 _ hs
    intro hnil
    have hmem : p ∈ cloud.filter (nearer m μ1 μ2) := by
      refine List.mem_filter.mpr ⟨(List.mem_filter.mp hp).1, ?_⟩
      rw [nearer_planar hm μ1 μ2 p hμz, decide_eq_true_iff]
      linarith
    rw [hnil] at hmem
    cases hmem
  · have hs : 0 < (W2.map (fun p => sqDist2 p μ1 - sqDist2 p μ2)).sum := by
      rw [sum_sqDist2_sub, ← hμ2, hself2, hsymm]
      have := mul_pos hn2 hD
      linarith
    obtain ⟨p, hp, hlt⟩ := exists_pos_of_sum_pos W2 _ hs
    intro hnil
    have hmem : p ∈ cloud.filter (fun p => !nearer m μ1 μ2 p) := by
      refine List.mem_filter.mpr ⟨(List.mem_filter.mp hp).1, ?_⟩
      rw [nearer_planar hm μ1 μ2 p hμz]
      simp only [Bool.not_eq_true', decide_eq_false_iff_not, not_lt]
      linarith
    rw [hnil] at hmem
    cases hmem

theorem passWalls_eq (m : Libm K) (cloud : List (Point32 K)) (first last : Point32 K)
    (k : Nat) :
    passWalls m cloud first last k =
      wallsOf (nearer m (passCentroids m cloud first last k).1
        (passCentroids m cloud first last k).2) cloud := by
  unfold passWalls
  exact assignStep_eq m _ _ cloud

theorem passCentroids_succ (m : Libm K) (cloud : List (Point32 K)) (first last : Point32 K)
    (k : Nat) :
    passCentroids m cloud first last (k + 1) =
      (recomputeCentroid (passWalls m cloud first last k).wall1x
          (passWalls m cloud first last k).wall1y,
        recomputeCentroid (passWalls m cloud first last k).wall2x
          (passWalls m cloud first last k).wall2y) := rfl

theorem passCentroids_succ_eq (m : Libm K) (cloud : List (Point32 K))
    (first last : Point32 K) (k : Nat) :
    passCentroids m cloud first last (k + 1) =
      (centroidOf (cloud.filter (nearer m (passCentroids m cloud first last k).1
          (passCentroids m cloud first last k).2)),
        centroidOf (cloud.filter (fun p => !nearer m (passCentroids m cloud first last k).1
          (passCentroids m cloud first last k).2 p))) := by
  rw [passCentroids_succ, passWalls_eq]
  rfl

theorem nearer_last {m : Libm K} (hm : m.Exact) (a b : Point32 K) :
    nearer m a b b = false := by
  unfold nearer
  rw [decide_eq_false_iff_not, distance_lt_distance_iff hm]
  simp only [sub_self]
  intro h
  nlinarith [sq_nonneg (b.x - a.x), sq_nonneg (b.y - a.y), sq_nonneg (b.z - a.z)]

/-- When the first and the last point differ and have the same `z`, every pass of the loop
ends with both walls inhabited. -/
theorem passes_inhabited {m : Libm K} (hm : m.Exact) (cloud : List (Point32 K))
    (first last : Point32 K) (hf : first ∈ cloud) (hl : last ∈ cloud)
    (hne : first ≠ last) (hz : first.z = last.z) (k : Nat) :
    (passCentroids m cloud first last k).1.z = (passCentroids m cloud first last k).2.z ∧
    cloud.filter (nearer m (passCentroids m cloud first last k).1
      (passCentroids m cloud first last k).2) ≠ [] ∧
    cloud.filter (fun p => !nearer m (passCentroids m cloud first last k).1
      (passCentroids m cloud first last k).2 p) ≠ [] := by
  induction k with
  | zero =>
    refine ⟨hz, ?_, ?_⟩
    · intro hnil
      have : first ∈ cloud.filter (nearer m first last) :=
        List.mem_filter.mpr ⟨hf, nearer_first hm first last hne⟩
      rw [show (passCentroids m cloud first last 0) = (first, last) from rfl] at hnil
      rw [hnil] at this
      cases this
    · intro hnil
      have : last ∈ cloud.filter (fun p => !nearer m first last p) :=
        List.mem_filter.mpr ⟨hl, by rw [nearer_last hm]; rfl⟩
      rw [show (passCentroids m cloud first last 0) = (first, last) from rfl] at hnil
      rw [hnil] at this
      cases this
  | succ k ih =>
    rw [passCentroids_succ_eq]
    obtain ⟨hzk, h1, h2⟩ := ih
    have hstep := step_inhabited hm cloud _ _ hzk h1 h2
    refine ⟨?_, hstep.1, hstep.2⟩
    simp only
    rw [centroidOf_eq, centroidOf_eq]

/-- The walls that the loop returns from the state it is in after pass `k + 1` are the
walls at the end of some pass. -/
theorem assignLoop_returns_pass (m : Libm K) (cloud : List (Point32 K))
    (first last : Point32 K) :
    ∀ (fuel k : Nat) (px py : List K) (w : Walls K),
      assignLoop m cloud fuel (passCentroids m cloud first last (k + 1)).1
          (passCentroids m cloud first last (k + 1)).2 px py
          (passWalls m cloud first last k) = .ok w →
        ∃ j, w = passWalls m cloud first last j := by
  intro fuel
  induction fuel with
  | zero =>
    intro k px py w h
    rw [assignLoop_zero] at h
    split at h
    · cases h
    · injection h with h
      exact ⟨k, h.symm⟩
  | succ n ih =>
    intro k px py w h
    rw [assignLoop_succ] at h
    split at h
    · exact ih (k + 1) _ _ w h
    · injection h with h
      exact ⟨k, h.symm⟩

theorem assignToWalls_returns_pass (m : Libm K) (fuel : Nat) (cloud : List (Point32 K))
    (first last : Point32 K) (h1 : cloud.head? = some first) (h2 : cloud.getLast? = some last)
    (w : Walls K) (h : assignToWalls m fuel cloud ⟨[], [], [], []⟩ = .ok w) :
    ∃ k, w = passWalls m cloud first last k := by
  unfold assignToWalls at h
  simp only [h1, h2] at h
  cases fuel with
  | zero => simp [assignLoop_zero] at h
  | succ n =>
    rw [assignLoop_succ] at h
    simp only [ne_eq, List.cons_ne_self, not_false_eq_true, true_or, if_true] at h
    exact assignLoop_returns_pass m cloud first last n 0 _ _ w h

/-! ## Rounded arithmetic -/

/-- With exact arithmetic the rounded `distance` is the exact one. -/
theorem rounded_distance_exact (m : Libm K) (p q : Point32 K) :
    Rounded.distance (Arith.exact m) p q = distance m p q :=
  rfl

/-- With exact arithmetic the rounded assignment loop is the exact one. -/
theorem rounded_assignPoints_exact (m : Libm K) (c1 c2 : Point32 K) (ps : List (Point32 K))
    (w : Walls K) :
    Rounded.assignPoints (Arith.exact m) c1 c2 ps w = assignPoints m c1 c2 ps w := by
  induction ps generalizing w with
  | nil => rfl
  | cons p ps ih =>
    unfold Rounded.assignPoints assignPoints
    rw [rounded_distance_exact, rounded_distance_exact, ih, ih]

/-- With exact arithmetic both rounded centroid loops are the exact one. -/
theorem rounded_recomputeCentroid_exact (m : Libm K) (xs ys : List K) :
    Rounded.recomputeCentroid (Arith.exact m) xs ys = recomputeCentroid xs ys ∧
    Rounded.wallCentroid (Arith.exact m) xs ys = recomputeCentroid xs ys :=
  ⟨rfl, rfl⟩

/-- With exact arithmetic the rounded `while` loop is the exact one. -/
theorem rounded_assignLoop_exact (m : Libm K) (cloud : List (Point32 K)) :
    ∀ (fuel : Nat) (c1 c2 : Point32 K) (px py : List K) (w : Walls K),
      Rounded.assignLoop (Arith.exact m) cloud fuel c1 c2 px py w =
        assignLoop m cloud fuel c1 c2 px py w := by
  intro fuel
  induction fuel with
  | zero =>
    intro c1 c2 px py w
    rw [Rounded.assignLoop, assignLoop]
  | succ n ih =>
    intro c1 c2 px py w
    rw [Rounded.assignLoop, assignLoop]
    simp only [rounded_assignPoints_exact, (rounded_recomputeCentroid_exact m _ _).1, ih]

/-- With exact arithmetic the rounded `assignToWalls` is the exact one. -/
theorem rounded_assignToWalls_exact (m : Libm K) (fuel : Nat) (cloud : List (Point32 K))
    (w : Walls K) :
    Rounded.assignToWalls (Arith.exact m) fuel cloud w = assignToWalls m fuel cloud w := by
  unfold Rounded.assignToWalls assignToWalls
  cases cloud.getLast? <;> cases cloud.head? <;> simp only [rounded_assignLoop_exact]

/-- With exact arithmetic the rounded erase loop is the exact one. -/
theorem rounded_eraseFar_exact (m : Libm K) (c : Point32 K) (k : K) (l : List (Point32 K)) :
    Rounded.eraseFar (Arith.exact m) c k l = eraseFar m c k l := by
  induction l with
  | nil => rfl
  | cons p ps ih =>
    unfold Rounded.eraseFar eraseFar
    rw [rounded_distance_exact, ih]

/-- With exact arithmetic the rounded `findHole` is the exact one. -/
theorem rounded_findHole_exact (m : Libm K) (fuel : Nat) (cloud : List (Point32 K)) :
    Rounded.findHole (Arith.exact m) fuel cloud = findHole m fuel cloud := by
  unfold Rounded.findHole findHole
  rw [rounded_assignToWalls_exact]
  cases assignToWalls m fuel cloud ⟨[], [], [], []⟩ with
  | error e => rfl
  | ok w =>
    show Rounded.holeCenter (Arith.exact m) (Rounded.retainedWalls (Arith.exact m) w).1
        (Rounded.retainedWalls (Arith.exact m) w).2 =
      holeCenter (retainedWalls m w).1 (retainedWalls m w).2
    have h : Rounded.retainedWalls (Arith.exact m) w = retainedWalls m w := by
      unfold Rounded.retainedWalls retainedWalls
      rw [rounded_eraseFar_exact, rounded_eraseFar_exact]
      rfl
    rw [h]
    rfl

/-- The rounded erase loop keeps the points whose rounded distance is at most the cutoff. -/
theorem rounded_eraseFar_eq_filter (a : Arith K) (c : Point32 K) (k : K)
    (l : List (Point32 K)) :
    Rounded.eraseFar a c k l = l.filter (fun p => decide (Rounded.distance a p c ≤ k)) := by
  induction l with
  | nil => simp [Rounded.eraseFar]
  | cons p ps ih =>
    by_cases h : Rounded.distance a p c > k
    · simp [Rounded.eraseFar, h, ih, not_le.mpr h]
    · simp [Rounded.eraseFar, h, ih, not_lt.mp h]

/-! ## Claims -/

/-- C1: when `assignToWalls`, called with empty output vectors as `findHole` calls it,
returns (which it does only on a non-empty cloud), the two walls partition the cloud: a
selector on the points sends every point, in scan order, to exactly one wall, so the walls
are disjoint by scan index and together hold the planar points of the cloud, none lost
and none duplicated. -/
theorem assignToWalls_partition (m : Libm K) (fuel : Nat) (cloud : List (Point32 K))
    (w : Walls K) (h : assignToWalls m fuel cloud ⟨[], [], [], []⟩ = .ok w) :
    ∃ sel : Point32 K → Bool,
      w.wall1x = (cloud.filter sel).map Point32.x ∧
      w.wall1y = (cloud.filter sel).map Point32.y ∧
      w.wall2x = (cloud.filter (fun p => !sel p)).map Point32.x ∧
      w.wall2y = (cloud.filter (fun p => !sel p)).map Point32.y ∧
      (toPoints w.wall1x w.wall1y ++ toPoints w.wall2x w.wall2y).Perm (cloud.map flatten) := by
  obtain ⟨d1, d2, rfl⟩ := assignToWalls_ok_cases m fuel cloud w h
  refine ⟨nearer m d1 d2, ?_, ?_, ?_, ?_, ?_⟩
  · simp [assignStep_eq, wallsOf]
  · simp [assignStep_eq, wallsOf]
  · simp [assignStep_eq, wallsOf]
  · simp [assignStep_eq, wallsOf]
  · simp only [assignStep_eq, wallsOf, toPoints_map, ← List.map_append]
    exact (List.filter_append_perm _ cloud).map flatten

/-- Witness for C1 on the two-point cloud `(0, 0), (1, 0)`. -/
theorem assignToWalls_partition_witness :
    assignToWalls (⟨Real.sqrt, fun y x => Complex.arg ⟨x, y⟩⟩ : Libm ℝ) 2
      [⟨0, 0, 0⟩, ⟨1, 0, 0⟩] ⟨[], [], [], []⟩ = .ok ⟨[0], [0], [1], [0]⟩ ∧
    ∃ sel : Point32 ℝ → Bool,
      [(0 : ℝ)] = (([⟨0, 0, 0⟩, ⟨1, 0, 0⟩] : List (Point32 ℝ)).filter sel).map Point32.x ∧
      [(0 : ℝ)] = (([⟨0, 0, 0⟩, ⟨1, 0, 0⟩] : List (Point32 ℝ)).filter sel).map Point32.y ∧
      [(1 : ℝ)] = (([⟨0, 0, 0⟩, ⟨1, 0, 0⟩] : List (Point32 ℝ)).filter
        (fun p => !sel p)).map Point32.x ∧
      [(0 : ℝ)] = (([⟨0, 0, 0⟩, ⟨1, 0, 0⟩] : List (Point32 ℝ)).filter
        (fun p => !sel p)).map Point32.y ∧
      (toPoints [(0 : ℝ)] [0] ++ toPoints [1] [0]).Perm
        (([⟨0, 0, 0⟩, ⟨1, 0, 0⟩] : List (Point32 ℝ)).map flatten) :=
  ⟨by norm_num [assignToWalls, assignLoop, assignPoints, distance, recomputeCentroid],
    assignToWalls_partition (⟨Real.sqrt, fun y x => Complex.arg ⟨x, y⟩⟩ : Libm ℝ) 2
      [⟨0, 0, 0⟩, ⟨1, 0, 0⟩] ⟨[0], [0], [1], [0]⟩
      (by norm_num [assignToWalls, assignLoop, assignPoints, distance, recomputeCentroid])⟩

/-- C2: in exact arithmetic the assign/recompute loop of `assignToWalls` converges on every
non-empty cloud: some amount of fuel suffices, and with that much fuel or more the function
returns the same walls. -/
theorem assignToWalls_converges (m : Libm K) (hm : m.Exact) (cloud : List (Point32 K))
    (hne : cloud ≠ []) :
    ∃ (fuel : Nat) (w : Walls K), ∀ fuel' : Nat, fuel ≤ fuel' →
      assignToWalls m fuel' cloud ⟨[], [], [], []⟩ = .ok w := by
  obtain ⟨fuel, w, h⟩ := assignToWalls_terminates hm cloud hne ⟨[], [], [], []⟩
  exact ⟨fuel, w, fun fuel' hle => assignToWalls_fuel_mono m cloud fuel fuel' hle _ _ h⟩

/-- Witness for C2 on the four-point cloud of the two-walls scenario. -/
theorem assignToWalls_converges_witness :
    Libm.Exact (⟨Real.sqrt, fun y x => Complex.arg ⟨x, y⟩⟩ : Libm ℝ) ∧
    ([⟨-2, 1, 0⟩, ⟨-2, -1, 0⟩, ⟨2, 1, 0⟩, ⟨2, -1, 0⟩] : List (Point32 ℝ)) ≠ [] ∧
    ∃ (fuel : Nat) (w : Walls ℝ), ∀ fuel' : Nat, fuel ≤ fuel' →
      assignToWalls (⟨Real.sqrt, fun y x => Complex.arg ⟨x, y⟩⟩ : Libm ℝ) fuel'
        [⟨-2, 1, 0⟩, ⟨-2, -1, 0⟩, ⟨2, 1, 0⟩, ⟨2, -1, 0⟩] ⟨[], [], [], []⟩ = .ok w :=
  ⟨real_exact, by simp, assignToWalls_converges _ real_exact _ (by simp)⟩

/-- C3 at the cloud `(-1, 0), (3, 0), (-1, 0)`, whose first and last points coincide: the
first pass sends every point to wall 2, the loop compares the empty wall 1 with the empty
vector it was handed and returns; re-running the assignment pass on the returned walls with
their recomputed centroids `(0, 0)` and `(1/3, 0)` moves both copies of `(-1, 0)` to
wall 1, so the returned walls are not a fixed point of the assignment pass. -/
theorem assignToWalls_stops_before_fixed_point :
    (∀ fuel : Nat,
      assignToWalls (⟨Real.sqrt, fun y x => Complex.arg ⟨x, y⟩⟩ : Libm ℝ) (fuel + 1)
        [⟨-1, 0, 0⟩, ⟨3, 0, 0⟩, ⟨-1, 0, 0⟩] ⟨[], [], [], []⟩ =
          .ok ⟨[], [], [-1, 3, -1], [0, 0, 0]⟩) ∧
    assignStep (⟨Real.sqrt, fun y x => Complex.arg ⟨x, y⟩⟩ : Libm ℝ)
      (recomputeCentroid [] []) (recomputeCentroid [-1, 3, -1] [0, 0, 0])
      [⟨-1, 0, 0⟩, ⟨3, 0, 0⟩, ⟨-1, 0, 0⟩] = ⟨[-1, -1], [0, 0], [3], [0]⟩ ∧
    (⟨[-1, -1], [0, 0], [3], [0]⟩ : Walls ℝ) ≠ ⟨[], [], [-1, 3, -1], [0, 0, 0]⟩ := by
  refine ⟨?_, ?_, ?_⟩
  · intro fuel
    apply assignToWalls_fuel_mono _ _ 1 (fuel + 1) (by omega)
    norm_num [assignToWalls, assignLoop, assignPoints, recomputeCentroid,
      distance_lt_distance_iff real_exact]
  · norm_num [assignStep, assignPoints, recomputeCentroid, distance_lt_distance_iff real_exact]
  · intro h
    injection h with h1
    cases h1

/-- C4: on the cloud `(-2, 1), (-2, -1), (2, 1), (2, -1)` the walls are
`(-2, 1), (-2, -1)` and `(2, 1), (2, -1)`, both survive outlier rejection, the boundary
points are `wall1.back() = (-2, -1)` and `wall2[0] = (2, 1)`, the target is `(0, 0, 0)` and
the command is the Stop command. -/
theorem two_walls_scenario (m : Libm K) (hm : m.Exact) (fuel : Nat) :
    assignToWalls m (fuel + 2) [⟨-2, 1, 0⟩, ⟨-2, -1, 0⟩, ⟨2, 1, 0⟩, ⟨2, -1, 0⟩]
      ⟨[], [], [], []⟩ = .ok ⟨[-2, -2], [1, -1], [2, 2], [1, -1]⟩ ∧
    retainedWalls m ⟨[-2, -2], [1, -1], [2, 2], [1, -1]⟩ =
      ([⟨-2, 1, 0⟩, ⟨-2, -1, 0⟩], [⟨2, 1, 0⟩, ⟨2, -1, 0⟩]) ∧
    (retainedWalls m ⟨[-2, -2], [1, -1], [2, 2], [1, -1]⟩).1.getLast? = some ⟨-2, -1, 0⟩ ∧
    (retainedWalls m ⟨[-2, -2], [1, -1], [2, 2], [1, -1]⟩).2.head? = some ⟨2, 1, 0⟩ ∧
    findHole m (fuel + 2) [⟨-2, 1, 0⟩, ⟨-2, -1, 0⟩, ⟨2, 1, 0⟩, ⟨2, -1, 0⟩] = .ok ⟨0, 0, 0⟩ ∧
    moveToHole m ⟨0, 0, 0⟩ = stopOlaf ∧
    commandFor m (fuel + 2) [⟨-2, 1, 0⟩, ⟨-2, -1, 0⟩, ⟨2, 1, 0⟩, ⟨2, -1, 0⟩] = .ok stopOlaf := by
  have h1 : assignToWalls m (fuel + 2) [⟨-2, 1, 0⟩, ⟨-2, -1, 0⟩, ⟨2, 1, 0⟩, ⟨2, -1, 0⟩]
      ⟨[], [], [], []⟩ = .ok ⟨[-2, -2], [1, -1], [2, 2], [1, -1]⟩ := by
    apply assignToWalls_fuel_mono m _ 2 (fuel + 2) (by omega)
    norm_num [assignToWalls, assignLoop, assignPoints, recomputeCentroid,
      distance_lt_distance_iff hm]
  have h2 : retainedWalls m ⟨[-2, -2], [1, -1], [2, 2], [1, -1]⟩ =
      ([⟨-2, 1, 0⟩, ⟨-2, -1, 0⟩], [⟨2, 1, 0⟩, ⟨2, -1, 0⟩]) := by
    norm_num [retainedWalls, eraseFar, toPoints, recomputeCentroid, one_lt_distance_iff hm]
  have h3 : findHole m (fuel + 2) [⟨-2, 1, 0⟩, ⟨-2, -1, 0⟩, ⟨2, 1, 0⟩, ⟨2, -1, 0⟩] =
      .ok ⟨0, 0, 0⟩ := by
    rw [findHole_of_ok _ _ _ _ h1, h2]
    norm_num [holeCenter]
  have h4 : moveToHole m ⟨0, 0, 0⟩ = stopOlaf := by
    apply moveToHole_of_lt
    norm_num [sqrt_zero_eq hm]
  refine ⟨h1, h2, by rw [h2]; rfl, by rw [h2]; rfl, h3, h4, ?_⟩
  unfold commandFor
  rw [h3]
  exact congrArg Except.ok h4

/-- Witness for C4 over the real numbers. -/
theorem two_walls_scenario_witness :
    Libm.Exact (⟨Real.sqrt, fun y x => Complex.arg ⟨x, y⟩⟩ : Libm ℝ) ∧
    assignToWalls (⟨Real.sqrt, fun y x => Complex.arg ⟨x, y⟩⟩ : Libm ℝ) (0 + 2)
      [⟨-2, 1, 0⟩, ⟨-2, -1, 0⟩, ⟨2, 1, 0⟩, ⟨2, -1, 0⟩]
      ⟨[], [], [], []⟩ = .ok ⟨[-2, -2], [1, -1], [2, 2], [1, -1]⟩ ∧
    retainedWalls (⟨Real.sqrt, fun y x => Complex.arg ⟨x, y⟩⟩ : Libm ℝ)
      ⟨[-2, -2], [1, -1], [2, 2], [1, -1]⟩ =
      ([⟨-2, 1, 0⟩, ⟨-2, -1, 0⟩], [⟨2, 1, 0⟩, ⟨2, -1, 0⟩]) ∧
    (retainedWalls (⟨Real.sqrt, fun y x => Complex.arg ⟨x, y⟩⟩ : Libm ℝ)
      ⟨[-2, -2], [1, -1], [2, 2], [1, -1]⟩).1.getLast? = some ⟨-2, -1, 0⟩ ∧
    (retainedWalls (⟨Real.sqrt, fun y x => Complex.arg ⟨x, y⟩⟩ : Libm ℝ)
      ⟨[-2, -2], [1, -1], [2, 2], [1, -1]⟩).2.head? = some ⟨2, 1, 0⟩ ∧
    findHole (⟨Real.sqrt, fun y x => Complex.arg ⟨x, y⟩⟩ : Libm ℝ) (0 + 2)
      [⟨-2, 1, 0⟩, ⟨-2, -1, 0⟩, ⟨2, 1, 0⟩, ⟨2, -1, 0⟩] = .ok ⟨0, 0, 0⟩ ∧
    moveToHole (⟨Real.sqrt, fun y x => Complex.arg ⟨x, y⟩⟩ : Libm ℝ) ⟨0, 0, 0⟩ = stopOlaf ∧
    commandFor (⟨Real.sqrt, fun y x => Complex.arg ⟨x, y⟩⟩ : Libm ℝ) (0 + 2)
      [⟨-2, 1, 0⟩, ⟨-2, -1, 0⟩, ⟨2, 1, 0⟩, ⟨2, -1, 0⟩] = .ok stopOlaf :=
  ⟨real_exact, two_walls_scenario (⟨Real.sqrt, fun y x => Complex.arg ⟨x, y⟩⟩ : Libm ℝ)
    real_exact 0⟩

/-- Counterexample to C5 as stated.  The cloud `(-2, 1), (-2, -1), (2, -1), (2, 1)` contains
the mirror image of each of its points, and its target `(0, -1)` is off the axis.  Two more
clouds show what else the claim needs: `(1, -1), (2, 0), (1, 1)` is symmetric in scan order
but its point on the axis is a tie that goes to wall 2, and the target `(3/2, -1/2)` is off
the axis; `(-1, -1), (-2, -1), (-2, 1), (-1, 1)` is symmetric in scan order with no point on
the axis, its target `(-2, 0)` is on the axis behind the robot, and the turning rate is
`atan2 (0, -2)`, which is not `0`.  The last cloud shows that the claim needs exact
arithmetic: `(0, 4), (0, 3), (0, 2), (0, -2), (0, -3), (0, -4)` is symmetric in scan order
with no point on the axis, and in IEEE arithmetic its target is `(0, 1/2)`, because the
`float` centroid of wall 1, `(0, 3 + 2 ^ (-22))`, is not the mirror image of that of wall 2,
`(0, -3)`, and outlier rejection erases `(0, 2)` but keeps `(0, -2)`. -/
theorem symmetric_set_target_off_axis :
    (∀ p ∈ ([⟨-2, 1, 0⟩, ⟨-2, -1, 0⟩, ⟨2, -1, 0⟩, ⟨2, 1, 0⟩] : List (Point32 ℝ)),
      mirror p ∈ ([⟨-2, 1, 0⟩, ⟨-2, -1, 0⟩, ⟨2, -1, 0⟩, ⟨2, 1, 0⟩] : List (Point32 ℝ))) ∧
    findHole (⟨Real.sqrt, fun y x => Complex.arg ⟨x, y⟩⟩ : Libm ℝ) 2
      [⟨-2, 1, 0⟩, ⟨-2, -1, 0⟩, ⟨2, -1, 0⟩, ⟨2, 1, 0⟩] = .ok ⟨0, -1, 0⟩ ∧
    (⟨0, -1, 0⟩ : Point32 ℝ).y ≠ 0 ∧
    ([⟨1, -1, 0⟩, ⟨2, 0, 0⟩, ⟨1, 1, 0⟩] : List (Point32 ℝ)).reverse =
      ([⟨1, -1, 0⟩, ⟨2, 0, 0⟩, ⟨1, 1, 0⟩] : List (Point32 ℝ)).map mirror ∧
    findHole (⟨Real.sqrt, fun y x => Complex.arg ⟨x, y⟩⟩ : Libm ℝ) 2
      [⟨1, -1, 0⟩, ⟨2, 0, 0⟩, ⟨1, 1, 0⟩] = .ok ⟨3 / 2, -1 / 2, 0⟩ ∧
    (⟨3 / 2, -1 / 2, 0⟩ : Point32 ℝ).y ≠ 0 ∧
    ([⟨-1, -1, 0⟩, ⟨-2, -1, 0⟩, ⟨-2, 1, 0⟩, ⟨-1, 1, 0⟩] : List (Point32 ℝ)).reverse =
      ([⟨-1, -1, 0⟩, ⟨-2, -1, 0⟩, ⟨-2, 1, 0⟩, ⟨-1, 1, 0⟩] : List (Point32 ℝ)).map mirror ∧
    findHole (⟨Real.sqrt, fun y x => Complex.arg ⟨x, y⟩⟩ : Libm ℝ) 2
      [⟨-1, -1, 0⟩, ⟨-2, -1, 0⟩, ⟨-2, 1, 0⟩, ⟨-1, 1, 0⟩] = .ok ⟨-2, 0, 0⟩ ∧
    (moveToHole (⟨Real.sqrt, fun y x => Complex.arg ⟨x, y⟩⟩ : Libm ℝ)
      ⟨-2, 0, 0⟩).angular.z ≠ 0 ∧
    ([⟨0, 4, 0⟩, ⟨0, 3, 0⟩, ⟨0, 2, 0⟩, ⟨0, -2, 0⟩, ⟨0, -3, 0⟩, ⟨0, -4, 0⟩] :
      List (Point32 ℚ)).reverse =
      ([⟨0, 4, 0⟩, ⟨0, 3, 0⟩, ⟨0, 2, 0⟩, ⟨0, -2, 0⟩, ⟨0, -3, 0⟩, ⟨0, -4, 0⟩] :
        List (Point32 ℚ)).map mirror ∧
    (∀ p ∈ ([⟨0, 4, 0⟩, ⟨0, 3, 0⟩, ⟨0, 2, 0⟩, ⟨0, -2, 0⟩, ⟨0, -3, 0⟩, ⟨0, -4, 0⟩] :
      List (Point32 ℚ)), p.y ≠ 0) ∧
    Rounded.wallCentroid ieee [0, 0, 0] [4, 3, 2] = ⟨0, 12582913 / 4194304, 0⟩ ∧
    Rounded.wallCentroid ieee [0, 0, 0] [-2, -3, -4] = ⟨0, -3, 0⟩ ∧
    Rounded.retainedWalls ieee ⟨[0, 0, 0], [4, 3, 2], [0, 0, 0], [-2, -3, -4]⟩ =
      ([⟨0, 4, 0⟩, ⟨0, 3, 0⟩], [⟨0, -2, 0⟩, ⟨0, -3, 0⟩, ⟨0, -4, 0⟩]) ∧
    Rounded.findHole ieee 2
      [⟨0, 4, 0⟩, ⟨0, 3, 0⟩, ⟨0, 2, 0⟩, ⟨0, -2, 0⟩, ⟨0, -3, 0⟩, ⟨0, -4, 0⟩] =
      .ok ⟨0, 1 / 2, 0⟩ ∧
    (⟨0, 1 / 2, 0⟩ : Point32 ℚ).y ≠ 0 := by
  have hw1 : assignToWalls (⟨Real.sqrt, fun y x => Complex.arg ⟨x, y⟩⟩ : Libm ℝ) 2
    [⟨-2, 1, 0⟩, ⟨-2, -1, 0⟩, ⟨2, -1, 0⟩, ⟨2, 1, 0⟩]
      ⟨[], [], [], []⟩ = .ok ⟨[-2, -2], [1, -1], [2, 2], [-1, 1]⟩ := by
    norm_num [assignToWalls, assignLoop, assignPoints, recomputeCentroid,
      distance_lt_distance_iff real_exact]
  have hr1 : retainedWalls (⟨Real.sqrt, fun y x => Complex.arg ⟨x, y⟩⟩ : Libm ℝ)
    ⟨[-2, -2], [1, -1], [2, 2], [-1, 1]⟩ =
      ([⟨-2, 1, 0⟩, ⟨-2, -1, 0⟩], [⟨2, -1, 0⟩, ⟨2, 1, 0⟩]) := by
    norm_num [retainedWalls, eraseFar, toPoints, recomputeCentroid,
      one_lt_distance_iff real_exact]
  have hw2 : assignToWalls (⟨Real.sqrt, fun y x => Complex.arg ⟨x, y⟩⟩ : Libm ℝ) 2
    [⟨1, -1, 0⟩, ⟨2, 0, 0⟩, ⟨1, 1, 0⟩]
      ⟨[], [], [], []⟩ = .ok ⟨[1], [-1], [2, 1], [0, 1]⟩ := by
    norm_num [assignToWalls, assignLoop, assignPoints, recomputeCentroid,
      distance_lt_distance_iff real_exact]
  have hr2 : retainedWalls (⟨Real.sqrt, fun y x => Complex.arg ⟨x, y⟩⟩ : Libm ℝ)
    ⟨[1], [-1], [2, 1], [0, 1]⟩ =
      ([⟨1, -1, 0⟩], [⟨2, 0, 0⟩, ⟨1, 1, 0⟩]) := by
    norm_num [retainedWalls, eraseFar, toPoints, recomputeCentroid,
      one_lt_distance_iff real_exact]
  have hw3 : assignToWalls (⟨Real.sqrt, fun y x => Complex.arg ⟨x, y⟩⟩ : Libm ℝ) 2
    [⟨-1, -1, 0⟩, ⟨-2, -1, 0⟩, ⟨-2, 1, 0⟩, ⟨-1, 1, 0⟩]
      ⟨[], [], [], []⟩ = .ok ⟨[-1, -2], [-1, -1], [-2, -1], [1, 1]⟩ := by
    norm_num [assignToWalls, assignLoop, assignPoints, recomputeCentroid,
      distance_lt_distance_iff real_exact]
  have hr3 : retainedWalls (⟨Real.sqrt, fun y x => Complex.arg ⟨x, y⟩⟩ : Libm ℝ)
    ⟨[-1, -2], [-1, -1], [-2, -1], [1, 1]⟩ =
      ([⟨-1, -1, 0⟩, ⟨-2, -1, 0⟩], [⟨-2, 1, 0⟩, ⟨-1, 1, 0⟩]) := by
    norm_num [retainedWalls, eraseFar, toPoints, recomputeCentroid,
      one_lt_distance_iff real_exact]
  have hs : Real.sqrt ((-2 : ℝ) ^ 2 + (0 : ℝ) ^ 2) = 2 := by
    rw [show ((-2 : ℝ) ^ 2 + (0 : ℝ) ^ 2) = 2 ^ 2 by norm_num]
    exact Real.sqrt_sq (by norm_num)
  have hnot : ¬ (⟨Real.sqrt, fun y x => Complex.arg ⟨x, y⟩⟩ : Libm ℝ).sqrt
      ((⟨-2, 0, 0⟩ : Point32 ℝ).x ^ 2 + (⟨-2, 0, 0⟩ : Point32 ℝ).y ^ 2) < 1 / 1000 := by
    show ¬ Real.sqrt ((-2 : ℝ) ^ 2 + (0 : ℝ) ^ 2) < 1 / 1000
    rw [hs]
    norm_num
  refine ⟨?_, ?_, by norm_num, by simp [mirror], ?_, by norm_num, by simp [mirror], ?_, ?_,
    by decide!, by decide!, by decide!, by decide!, by decide!, by decide!, by decide!⟩
  · intro p hp
    simp only [List.mem_cons, List.mem_singleton, List.not_mem_nil, or_false] at hp
    rcases hp with rfl | rfl | rfl | rfl <;> simp [mirror]
  · rw [findHole_of_ok _ _ _ _ hw1, hr1]
    norm_num [holeCenter]
  · rw [findHole_of_ok _ _ _ _ hw2, hr2]
    norm_num [holeCenter]
  · rw [findHole_of_ok _ _ _ _ hw3, hr3]
    norm_num [holeCenter]
  · rw [moveToHole_of_not_lt _ _ hnot]
    show Complex.arg ⟨-2, 0⟩ ≠ 0
    have : (⟨-2, 0⟩ : ℂ) = ((-2 : ℝ) : ℂ) := rfl
    rw [this, Complex.arg_ofReal_of_neg (by norm_num)]
    exact Real.pi_ne_zero

/-- C5, amended: in exact arithmetic, for a cloud that is mirror-symmetric in scan order
(the point at scan index `i` is the mirror image in the forward axis of the point at index
`n - 1 - i`), has no point on the axis, and on which `findHole` produces a target, the
target lies on the axis (`y = 0`), and the turning rate of `moveToHole` is `0` unless the
target lies `0.001` or more behind the robot. -/
theorem findHole_symmetric (m : Libm K) (hm : m.Exact) (fuel : Nat)
    (cloud : List (Point32 K)) (t : Point32 K)
    (hsym : cloud.reverse = cloud.map mirror) (hoff : ∀ p ∈ cloud, p.y ≠ 0)
    (hfind : findHole m fuel cloud = .ok t) :
    t.y = 0 ∧ (-(1 / 1000) < t.x → (moveToHole m t).angular.z = 0) :=
  ⟨findHole_target_of_symmetric hm fuel cloud t hsym hoff hfind,
    moveToHole_angular_of_on_axis hm t
      (findHole_target_of_symmetric hm fuel cloud t hsym hoff hfind)⟩

/-- Witness for the amended C5, in exact real arithmetic, on a cloud with a wall on either
side of the axis. -/
theorem findHole_symmetric_witness :
    Libm.Exact (⟨Real.sqrt, fun y x => Complex.arg ⟨x, y⟩⟩ : Libm ℝ) ∧
    ([⟨1, -2, 0⟩, ⟨2, -2, 0⟩, ⟨2, 2, 0⟩, ⟨1, 2, 0⟩] : List (Point32 ℝ)).reverse =
      ([⟨1, -2, 0⟩, ⟨2, -2, 0⟩, ⟨2, 2, 0⟩, ⟨1, 2, 0⟩] : List (Point32 ℝ)).map mirror ∧
    (∀ p ∈ ([⟨1, -2, 0⟩, ⟨2, -2, 0⟩, ⟨2, 2, 0⟩, ⟨1, 2, 0⟩] : List (Point32 ℝ)), p.y ≠ 0) ∧
    findHole (⟨Real.sqrt, fun y x => Complex.arg ⟨x, y⟩⟩ : Libm ℝ) 2
      [⟨1, -2, 0⟩, ⟨2, -2, 0⟩, ⟨2, 2, 0⟩, ⟨1, 2, 0⟩] = .ok ⟨2, 0, 0⟩ ∧
    (⟨2, 0, 0⟩ : Point32 ℝ).y = 0 ∧
    (-(1 / 1000) < (⟨2, 0, 0⟩ : Point32 ℝ).x → (moveToHole
      (⟨Real.sqrt, fun y x => Complex.arg ⟨x, y⟩⟩ : Libm ℝ)
        ⟨2, 0, 0⟩).angular.z = 0) := by
  have hsym : ([⟨1, -2, 0⟩, ⟨2, -2, 0⟩, ⟨2, 2, 0⟩, ⟨1, 2, 0⟩] : List (Point32 ℝ)).reverse =
      ([⟨1, -2, 0⟩, ⟨2, -2, 0⟩, ⟨2, 2, 0⟩, ⟨1, 2, 0⟩] : List (Point32 ℝ)).map mirror := by
    simp [mirror]
  have hoff : ∀ p ∈ ([⟨1, -2, 0⟩, ⟨2, -2, 0⟩, ⟨2, 2, 0⟩, ⟨1, 2, 0⟩] : List (Point32 ℝ)),
      p.y ≠ 0 := by
    intro p hp
    simp only [List.mem_cons, List.mem_singleton, List.not_mem_nil, or_false] at hp
    rcases hp with rfl | rfl | rfl | rfl <;> norm_num
  have hw : assignToWalls (⟨Real.sqrt, fun y x => Complex.arg ⟨x, y⟩⟩ : Libm ℝ) 2
    [⟨1, -2, 0⟩, ⟨2, -2, 0⟩, ⟨2, 2, 0⟩, ⟨1, 2, 0⟩]
      ⟨[], [], [], []⟩ = .ok ⟨[1, 2], [-2, -2], [2, 1], [2, 2]⟩ := by
    norm_num [assignToWalls, assignLoop, assignPoints, recomputeCentroid,
      distance_lt_distance_iff real_exact]
  have hr : retainedWalls (⟨Real.sqrt, fun y x => Complex.arg ⟨x, y⟩⟩ : Libm ℝ)
    ⟨[1, 2], [-2, -2], [2, 1], [2, 2]⟩ =
      ([⟨1, -2, 0⟩, ⟨2, -2, 0⟩], [⟨2, 2, 0⟩, ⟨1, 2, 0⟩]) := by
    norm_num [retainedWalls, eraseFar, toPoints, recomputeCentroid,
      one_lt_distance_iff real_exact]
  have hfind : findHole (⟨Real.sqrt, fun y x => Complex.arg ⟨x, y⟩⟩ : Libm ℝ) 2
    [⟨1, -2, 0⟩, ⟨2, -2, 0⟩, ⟨2, 2, 0⟩, ⟨1, 2, 0⟩] =
      .ok ⟨2, 0, 0⟩ := by
    rw [findHole_of_ok _ _ _ _ hw, hr]
    norm_num [holeCenter]
  exact ⟨real_exact, hsym, hoff, hfind,
    findHole_symmetric (⟨Real.sqrt, fun y x => Complex.arg ⟨x, y⟩⟩ : Libm ℝ)
      real_exact 2 _ ⟨2, 0, 0⟩ hsym hoff hfind⟩

/-- C6: `moveToHole` returns exactly the Stop command (all six components `0`) if and only
if the distance `sqrt (x ^ 2 + y ^ 2)` of the target from the origin is strictly less than
`0.001`; in particular every target closer than `0.001` to the origin yields Stop. -/
theorem moveToHole_eq_stop_iff (m : Libm K) (center : Point32 K) :
    (moveToHole m center = ⟨⟨0, 0, 0⟩, ⟨0, 0, 0⟩⟩ ↔
      m.sqrt (center.x ^ 2 + center.y ^ 2) < 1 / 1000) ∧
    (stopOlaf : Twist K) = ⟨⟨0, 0, 0⟩, ⟨0, 0, 0⟩⟩ := by
  refine ⟨⟨?_, ?_⟩, rfl⟩
  · intro heq
    by_contra h
    rw [moveToHole_of_not_lt m center h] at heq
    have hx : m.sqrt (center.x ^ 2 + center.y ^ 2) = 0 :=
      congrArg (fun t => t.linear.x) heq
    rw [hx] at h
    exact h (by norm_num)
  · exact moveToHole_of_lt m center

/-- Counterexample to C7 as stated: at the target `(1/2000, 0)` the norm is `1/2000`, the
Stop override applies and the forward speed is `0`, not the norm. -/
theorem forward_speed_zero_below_threshold :
    (moveToHole (⟨Real.sqrt, fun y x => Complex.arg ⟨x, y⟩⟩ : Libm ℝ) ⟨1 / 2000, 0, 0⟩).linear.x ≠
      Real.sqrt ((1 / 2000 : ℝ) ^ 2 + (0 : ℝ) ^ 2) := by
  have hs : Real.sqrt ((1 / 2000 : ℝ) ^ 2 + (0 : ℝ) ^ 2) = 1 / 2000 := by
    rw [show ((1 / 2000 : ℝ) ^ 2 + (0 : ℝ) ^ 2) = (1 / 2000) ^ 2 by norm_num]
    exact Real.sqrt_sq (by norm_num)
  have hlt : Real.sqrt ((1 / 2000 : ℝ) ^ 2 + (0 : ℝ) ^ 2) < 1 / 1000 := by
    rw [hs]; norm_num
  rw [hs, moveToHole_of_lt _ _ hlt]
  norm_num [stopOlaf]

/-- C7, amended: the forward speed `linear.x` of the command of `moveToHole` is
non-negative; it is the Euclidean norm `sqrt (x ^ 2 + y ^ 2)` of the target when that norm
is at least `0.001`, and it is `0` when the norm is below `0.001` (the Stop override). -/
theorem moveToHole_forward_speed (m : Libm K) (hm : m.Exact) (center : Point32 K) :
    0 ≤ (moveToHole m center).linear.x ∧
    (1 / 1000 ≤ m.sqrt (center.x ^ 2 + center.y ^ 2) →
      (moveToHole m center).linear.x = m.sqrt (center.x ^ 2 + center.y ^ 2)) ∧
    (m.sqrt (center.x ^ 2 + center.y ^ 2) < 1 / 1000 → (moveToHole m center).linear.x = 0) := by
  have h0 := hm.sqrt_nonneg (center.x ^ 2 + center.y ^ 2) (by positivity)
  by_cases h : m.sqrt (center.x ^ 2 + center.y ^ 2) < 1 / 1000
  · rw [moveToHole_of_lt m center h]
    exact ⟨le_rfl, fun h' => absurd h (not_lt.mpr h'), fun _ => rfl⟩
  · rw [moveToHole_of_not_lt m center h]
    exact ⟨h0, fun _ => rfl, fun h' => absurd h' h⟩

/-- Witness for the amended C7 at the target `(3, 4)`. -/
theorem moveToHole_forward_speed_witness :
    Libm.Exact (⟨Real.sqrt, fun y x => Complex.arg ⟨x, y⟩⟩ : Libm ℝ) ∧
    0 ≤ (moveToHole (⟨Real.sqrt, fun y x => Complex.arg ⟨x, y⟩⟩ : Libm ℝ) ⟨3, 4, 0⟩).linear.x ∧
    (1 / 1000 ≤ Real.sqrt ((3 : ℝ) ^ 2 + (4 : ℝ) ^ 2) →
      (moveToHole (⟨Real.sqrt, fun y x => Complex.arg ⟨x, y⟩⟩ : Libm ℝ) ⟨3, 4, 0⟩).linear.x =
        Real.sqrt ((3 : ℝ) ^ 2 + (4 : ℝ) ^ 2)) ∧
    (Real.sqrt ((3 : ℝ) ^ 2 + (4 : ℝ) ^ 2) < 1 / 1000 →
      (moveToHole (⟨Real.sqrt, fun y x => Complex.arg ⟨x, y⟩⟩ : Libm ℝ) ⟨3, 4, 0⟩).linear.x = 0) :=
  ⟨real_exact, moveToHole_forward_speed _ real_exact ⟨3, 4, 0⟩⟩

/-- C8: when both walls are non-empty after outlier rejection, the target of `findHole`
is the midpoint, with `z = 0`, of two cloud points: `p1`, the last point in scan order that
belongs to wall 1 and is retained, and `p2`, the first point in scan order that belongs to
wall 2 and is retained. -/
theorem findHole_midpoint (m : Libm K) (fuel : Nat) (cloud : List (Point32 K)) (w : Walls K)
    (h : assignToWalls m fuel cloud ⟨[], [], [], []⟩ = .ok w)
    (h1 : (retainedWalls m w).1 ≠ []) (h2 : (retainedWalls m w).2 ≠ []) :
    ∃ (sel : Point32 K → Bool) (p1 p2 : Point32 K),
      w.wall1x = (cloud.filter sel).map Point32.x ∧
      w.wall1y = (cloud.filter sel).map Point32.y ∧
      w.wall2x = (cloud.filter (fun p => !sel p)).map Point32.x ∧
      w.wall2y = (cloud.filter (fun p => !sel p)).map Point32.y ∧
      (cloud.filter (fun p => sel p && decide (distance m (flatten p)
        (recomputeCentroid w.wall1x w.wall1y) ≤ 1))).getLast? = some p1 ∧
      (cloud.filter (fun p => !sel p && decide (distance m (flatten p)
        (recomputeCentroid w.wall2x w.wall2y) ≤ 1))).head? = some p2 ∧
      findHole m fuel cloud = .ok ⟨(p2.x + p1.x) / 2, (p2.y + p1.y) / 2, 0⟩ := by
  obtain ⟨d1, d2, hw⟩ := assignToWalls_ok_cases m fuel cloud w h
  rw [assignStep_eq] at hw
  subst hw
  rw [findHole_of_ok m fuel cloud _ h]
  rw [retainedWalls_wallsOf] at h1 h2 ⊢
  simp only [ne_eq, List.map_eq_nil_iff] at h1 h2
  obtain ⟨p1, hp1⟩ : ∃ p1, (cloud.filter (fun p => nearer m d1 d2 p && decide (distance m (flatten p)
      (centroidOf (cloud.filter (nearer m d1 d2))) ≤ 1))).getLast? = some p1 := by
    cases hq : (cloud.filter (fun p => nearer m d1 d2 p && decide (distance m (flatten p)
      (centroidOf (cloud.filter (nearer m d1 d2))) ≤ 1))).getLast? with
    | none => exact absurd (List.getLast?_eq_none_iff.mp hq) h1
    | some p => exact ⟨p, rfl⟩
  obtain ⟨p2, hp2⟩ : ∃ p2, (cloud.filter (fun p => !nearer m d1 d2 p && decide (distance m (flatten p)
      (centroidOf (cloud.filter (fun p => !nearer m d1 d2 p))) ≤ 1))).head? = some p2 := by
    cases hq : (cloud.filter (fun p => !nearer m d1 d2 p && decide (distance m (flatten p)
      (centroidOf (cloud.filter (fun p => !nearer m d1 d2 p))) ≤ 1))).head? with
    | none => exact absurd (List.head?_eq_none_iff.mp hq) h2
    | some p => exact ⟨p, rfl⟩
  exact ⟨nearer m d1 d2, p1, p2, rfl, rfl, rfl, rfl, hp1, hp2,
    holeCenter_map_flatten _ _ p1 p2 hp1 hp2⟩

/-- Witness for C8 on a cloud with a wall on either side of the forward axis. -/
theorem findHole_midpoint_witness :
    assignToWalls (⟨Real.sqrt, fun y x => Complex.arg ⟨x, y⟩⟩ : Libm ℝ) 2
      [⟨1, -2, 0⟩, ⟨2, -2, 0⟩, ⟨2, 2, 0⟩, ⟨1, 2, 0⟩] ⟨[], [], [], []⟩ =
      .ok ⟨[1, 2], [-2, -2], [2, 1], [2, 2]⟩ ∧
    (retainedWalls (⟨Real.sqrt, fun y x => Complex.arg ⟨x, y⟩⟩ : Libm ℝ)
      ⟨[1, 2], [-2, -2], [2, 1], [2, 2]⟩).1 ≠ [] ∧
    (retainedWalls (⟨Real.sqrt, fun y x => Complex.arg ⟨x, y⟩⟩ : Libm ℝ)
      ⟨[1, 2], [-2, -2], [2, 1], [2, 2]⟩).2 ≠ [] ∧
    ∃ (sel : Point32 ℝ → Bool) (p1 p2 : Point32 ℝ),
      [(1 : ℝ), 2] = (([⟨1, -2, 0⟩, ⟨2, -2, 0⟩, ⟨2, 2, 0⟩, ⟨1, 2, 0⟩] :
        List (Point32 ℝ)).filter sel).map Point32.x ∧
      [(-2 : ℝ), -2] = (([⟨1, -2, 0⟩, ⟨2, -2, 0⟩, ⟨2, 2, 0⟩, ⟨1, 2, 0⟩] :
        List (Point32 ℝ)).filter sel).map Point32.y ∧
      [(2 : ℝ), 1] = (([⟨1, -2, 0⟩, ⟨2, -2, 0⟩, ⟨2, 2, 0⟩, ⟨1, 2, 0⟩] :
        List (Point32 ℝ)).filter (fun p => !sel p)).map Point32.x ∧
      [(2 : ℝ), 2] = (([⟨1, -2, 0⟩, ⟨2, -2, 0⟩, ⟨2, 2, 0⟩, ⟨1, 2, 0⟩] :
        List (Point32 ℝ)).filter (fun p => !sel p)).map Point32.y ∧
      (([⟨1, -2, 0⟩, ⟨2, -2, 0⟩, ⟨2, 2, 0⟩, ⟨1, 2, 0⟩] : List (Point32 ℝ)).filter
        (fun p => sel p && decide (distance (⟨Real.sqrt, fun y x => Complex.arg ⟨x, y⟩⟩ : Libm ℝ)
          (flatten p)
          (recomputeCentroid [1, 2] [-2, -2]) ≤ 1))).getLast? = some p1 ∧
      (([⟨1, -2, 0⟩, ⟨2, -2, 0⟩, ⟨2, 2, 0⟩, ⟨1, 2, 0⟩] : List (Point32 ℝ)).filter
        (fun p => !sel p && decide (distance (⟨Real.sqrt, fun y x => Complex.arg ⟨x, y⟩⟩ : Libm ℝ)
          (flatten p)
          (recomputeCentroid [2, 1] [2, 2]) ≤ 1))).head? = some p2 ∧
      findHole (⟨Real.sqrt, fun y x => Complex.arg ⟨x, y⟩⟩ : Libm ℝ) 2
        [⟨1, -2, 0⟩, ⟨2, -2, 0⟩, ⟨2, 2, 0⟩, ⟨1, 2, 0⟩] =
        .ok ⟨(p2.x + p1.x) / 2, (p2.y + p1.y) / 2, 0⟩ :=
  ⟨by norm_num [assignToWalls, assignLoop, assignPoints, recomputeCentroid,
        distance_lt_distance_iff real_exact],
    by
      norm_num [retainedWalls, eraseFar, toPoints, recomputeCentroid,
        one_lt_distance_iff real_exact]
      exact List.cons_ne_nil _ _,
    by
      norm_num [retainedWalls, eraseFar, toPoints, recomputeCentroid,
        one_lt_distance_iff real_exact]
      exact List.cons_ne_nil _ _,
    findHole_midpoint (⟨Real.sqrt, fun y x => Complex.arg ⟨x, y⟩⟩ : Libm ℝ) 2
      [⟨1, -2, 0⟩, ⟨2, -2, 0⟩, ⟨2, 2, 0⟩, ⟨1, 2, 0⟩]
      ⟨[1, 2], [-2, -2], [2, 1], [2, 2]⟩
      (by norm_num [assignToWalls, assignLoop, assignPoints, recomputeCentroid,
        distance_lt_distance_iff real_exact])
      (by
      norm_num [retainedWalls, eraseFar, toPoints, recomputeCentroid,
        one_lt_distance_iff real_exact]
      exact List.cons_ne_nil _ _)
      (by
      norm_num [retainedWalls, eraseFar, toPoints, recomputeCentroid,
        one_lt_distance_iff real_exact]
      exact List.cons_ne_nil _ _)⟩

/-- Counterexample to C9 as stated, in IEEE arithmetic.  On the cloud
`(0, 4), (0, 3), (0, 2), (0, -2), (0, -3), (0, -4)` wall 1 is `(0, 4), (0, 3), (0, 2)`.  Its
arithmetic mean is `(0, 3)`, from which the member `(0, 2)` is at distance exactly `1`, so
the claim keeps it.  The centroid that `findHole` accumulates in `float` is
`(0, 3 + 2 ^ (-22))`: the three quotients `4 / 3`, `3 / 3`, `2 / 3` and the two sums are
rounded one after the other.  The distance of `(0, 2)` from it is `1 + 2 ^ (-22)`, which
exceeds the cutoff, and the member is erased. -/
theorem rounded_centroid_erases_member_at_cutoff :
    Rounded.assignToWalls ieee 2
      [⟨0, 4, 0⟩, ⟨0, 3, 0⟩, ⟨0, 2, 0⟩, ⟨0, -2, 0⟩, ⟨0, -3, 0⟩, ⟨0, -4, 0⟩] ⟨[], [], [], []⟩ =
      .ok ⟨[0, 0, 0], [4, 3, 2], [0, 0, 0], [-2, -3, -4]⟩ ∧
    ([0, 0, 0] : List ℚ).sum / 3 = 0 ∧ ([4, 3, 2] : List ℚ).sum / 3 = 3 ∧
    Rounded.distance ieee ⟨0, 2, 0⟩ ⟨0, 3, 0⟩ = 1 ∧
    Rounded.wallCentroid ieee [0, 0, 0] [4, 3, 2] = ⟨0, 12582913 / 4194304, 0⟩ ∧
    Rounded.distance ieee ⟨0, 2, 0⟩ ⟨0, 12582913 / 4194304, 0⟩ = 4194305 / 4194304 ∧
    (Rounded.retainedWalls ieee ⟨[0, 0, 0], [4, 3, 2], [0, 0, 0], [-2, -3, -4]⟩).1 =
      [⟨0, 4, 0⟩, ⟨0, 3, 0⟩] := by
  refine ⟨by decide!, by decide!, by decide!, by decide!, by decide!, by decide!, by decide!⟩

/-- C9, amended: outlier rejection in `findHole` keeps, for each wall, exactly the members
whose distance to the centroid of the wall, both as the code computes them with their
roundings (the centroid is the running sum, in scan order and before any removal, of every
member coordinate divided by the member count), is at most the cutoff `1`, in their
original order; a member is dropped exactly when that distance exceeds `1`, so a member at
computed distance exactly `1` stays.  In exact arithmetic the centroid is the arithmetic
mean of the members. -/
theorem retainedWalls_eq_filter (a : Arith K) (fuel : Nat) (cloud : List (Point32 K))
    (w : Walls K) (h : Rounded.assignToWalls a fuel cloud ⟨[], [], [], []⟩ = .ok w) :
    (Rounded.retainedWalls a w).1 =
      (Rounded.toPoints a w.wall1x w.wall1y).filter (fun p => decide (Rounded.distance a p
        (Rounded.wallCentroid a w.wall1x w.wall1y) ≤ 1)) ∧
    (Rounded.retainedWalls a w).2 =
      (Rounded.toPoints a w.wall2x w.wall2y).filter (fun p => decide (Rounded.distance a p
        (Rounded.wallCentroid a w.wall2x w.wall2y) ≤ 1)) ∧
    (∀ p ∈ Rounded.toPoints a w.wall1x w.wall1y, (p ∉ (Rounded.retainedWalls a w).1 ↔
      1 < Rounded.distance a p (Rounded.wallCentroid a w.wall1x w.wall1y))) ∧
    (∀ p ∈ Rounded.toPoints a w.wall2x w.wall2y, (p ∉ (Rounded.retainedWalls a w).2 ↔
      1 < Rounded.distance a p (Rounded.wallCentroid a w.wall2x w.wall2y))) ∧
    (∀ m : Libm K, a = Arith.exact m →
      Rounded.wallCentroid a w.wall1x w.wall1y =
        ⟨((Rounded.toPoints a w.wall1x w.wall1y).map Point32.x).sum /
            ((Rounded.toPoints a w.wall1x w.wall1y).length : K),
         ((Rounded.toPoints a w.wall1x w.wall1y).map Point32.y).sum /
            ((Rounded.toPoints a w.wall1x w.wall1y).length : K), 0⟩ ∧
      Rounded.wallCentroid a w.wall2x w.wall2y =
        ⟨((Rounded.toPoints a w.wall2x w.wall2y).map Point32.x).sum /
            ((Rounded.toPoints a w.wall2x w.wall2y).length : K),
         ((Rounded.toPoints a w.wall2x w.wall2y).map Point32.y).sum /
            ((Rounded.toPoints a w.wall2x w.wall2y).length : K), 0⟩) := by
  refine ⟨?_, ?_, ?_, ?_, ?_⟩
  · unfold Rounded.retainedWalls
    exact rounded_eraseFar_eq_filter _ _ _ _
  · unfold Rounded.retainedWalls
    exact rounded_eraseFar_eq_filter _ _ _ _
  · intro p hp
    unfold Rounded.retainedWalls
    simp only [rounded_eraseFar_eq_filter, List.mem_filter, hp, true_and, decide_eq_true_eq,
      not_le]
  · intro p hp
    unfold Rounded.retainedWalls
    simp only [rounded_eraseFar_eq_filter, List.mem_filter, hp, true_and, decide_eq_true_eq,
      not_le]
  · intro m ha
    subst ha
    rw [rounded_assignToWalls_exact] at h
    obtain ⟨h1, h2⟩ := assignToWalls_lengths m fuel cloud w h
    rw [(rounded_recomputeCentroid_exact m _ _).2, (rounded_recomputeCentroid_exact m _ _).2]
    exact ⟨recomputeCentroid_toPoints _ _ h1, recomputeCentroid_toPoints _ _ h2⟩

/-- Witness for the amended C9 in IEEE arithmetic, on the cloud
`(1, 4), (1, 3), (1, 2), (1, -2), (1, -3), (1, -4)`. -/
theorem retainedWalls_eq_filter_witness :
    Rounded.assignToWalls ieee 2
      [⟨1, 4, 0⟩, ⟨1, 3, 0⟩, ⟨1, 2, 0⟩, ⟨1, -2, 0⟩, ⟨1, -3, 0⟩, ⟨1, -4, 0⟩] ⟨[], [], [], []⟩ =
      .ok ⟨[1, 1, 1], [4, 3, 2], [1, 1, 1], [-2, -3, -4]⟩ ∧
    (Rounded.retainedWalls ieee ⟨[1, 1, 1], [4, 3, 2], [1, 1, 1], [-2, -3, -4]⟩).1 =
      (Rounded.toPoints ieee [1, 1, 1] [4, 3, 2]).filter (fun p => decide (Rounded.distance ieee p
        (Rounded.wallCentroid ieee [1, 1, 1] [4, 3, 2]) ≤ 1)) ∧
    (Rounded.retainedWalls ieee ⟨[1, 1, 1], [4, 3, 2], [1, 1, 1], [-2, -3, -4]⟩).2 =
      (Rounded.toPoints ieee [1, 1, 1] [-2, -3, -4]).filter (fun p => decide
        (Rounded.distance ieee p (Rounded.wallCentroid ieee [1, 1, 1] [-2, -3, -4]) ≤ 1)) ∧
    (∀ p ∈ Rounded.toPoints ieee [1, 1, 1] [4, 3, 2],
      (p ∉ (Rounded.retainedWalls ieee ⟨[1, 1, 1], [4, 3, 2], [1, 1, 1], [-2, -3, -4]⟩).1 ↔
        1 < Rounded.distance ieee p (Rounded.wallCentroid ieee [1, 1, 1] [4, 3, 2]))) ∧
    (∀ p ∈ Rounded.toPoints ieee [1, 1, 1] [-2, -3, -4],
      (p ∉ (Rounded.retainedWalls ieee ⟨[1, 1, 1], [4, 3, 2], [1, 1, 1], [-2, -3, -4]⟩).2 ↔
        1 < Rounded.distance ieee p (Rounded.wallCentroid ieee [1, 1, 1] [-2, -3, -4]))) ∧
    (∀ m : Libm ℚ, ieee = Arith.exact m →
      Rounded.wallCentroid ieee [1, 1, 1] [4, 3, 2] =
        ⟨((Rounded.toPoints ieee [1, 1, 1] [4, 3, 2]).map Point32.x).sum /
            ((Rounded.toPoints ieee [1, 1, 1] [4, 3, 2]).length : ℚ),
         ((Rounded.toPoints ieee [1, 1, 1] [4, 3, 2]).map Point32.y).sum /
            ((Rounded.toPoints ieee [1, 1, 1] [4, 3, 2]).length : ℚ), 0⟩ ∧
      Rounded.wallCentroid ieee [1, 1, 1] [-2, -3, -4] =
        ⟨((Rounded.toPoints ieee [1, 1, 1] [-2, -3, -4]).map Point32.x).sum /
            ((Rounded.toPoints ieee [1, 1, 1] [-2, -3, -4]).length : ℚ),
         ((Rounded.toPoints ieee [1, 1, 1] [-2, -3, -4]).map Point32.y).sum /
            ((Rounded.toPoints ieee [1, 1, 1] [-2, -3, -4]).length : ℚ), 0⟩) :=
  ⟨by decide!,
    retainedWalls_eq_filter ieee 2
      [⟨1, 4, 0⟩, ⟨1, 3, 0⟩, ⟨1, 2, 0⟩, ⟨1, -2, 0⟩, ⟨1, -3, 0⟩, ⟨1, -4, 0⟩]
      ⟨[1, 1, 1], [4, 3, 2], [1, 1, 1], [-2, -3, -4]⟩ (by decide!)⟩

/-- Counterexample to C10 as stated: on the cloud `(0, 0), (0, 4), (100, 0)` both walls
returned by `assignToWalls` are non-empty, both members of wall 1 are at distance `2` from
its centroid `(0, 2)`, outlier rejection empties wall 1 and `wall1.back()` is out of range. -/
theorem outlier_rejection_empties_wall :
    assignToWalls (⟨Real.sqrt, fun y x => Complex.arg ⟨x, y⟩⟩ : Libm ℝ) 2
      [⟨0, 0, 0⟩, ⟨0, 4, 0⟩, ⟨100, 0, 0⟩] ⟨[], [], [], []⟩ = .ok ⟨[0, 0], [0, 4], [100], [0]⟩ ∧
    (retainedWalls (⟨Real.sqrt, fun y x => Complex.arg ⟨x, y⟩⟩ : Libm ℝ)
      ⟨[0, 0], [0, 4], [100], [0]⟩).1 = [] ∧
    findHole (⟨Real.sqrt, fun y x => Complex.arg ⟨x, y⟩⟩ : Libm ℝ) 2
      [⟨0, 0, 0⟩, ⟨0, 4, 0⟩, ⟨100, 0, 0⟩] = .error .emptyAccess := by
  have h1 : assignToWalls (⟨Real.sqrt, fun y x => Complex.arg ⟨x, y⟩⟩ : Libm ℝ) 2
      [⟨0, 0, 0⟩, ⟨0, 4, 0⟩, ⟨100, 0, 0⟩] ⟨[], [], [], []⟩ =
        .ok ⟨[0, 0], [0, 4], [100], [0]⟩ := by
    norm_num [assignToWalls, assignLoop, assignPoints, recomputeCentroid,
      distance_lt_distance_iff real_exact]
  have h2 : (retainedWalls (⟨Real.sqrt, fun y x => Complex.arg ⟨x, y⟩⟩ : Libm ℝ)
      ⟨[0, 0], [0, 4], [100], [0]⟩).1 = [] := by
    norm_num [retainedWalls, eraseFar, toPoints, recomputeCentroid,
      one_lt_distance_iff real_exact]
  refine ⟨h1, h2, ?_⟩
  rw [findHole_of_ok _ _ _ _ h1, h2]
  exact holeCenter_nil_left _

/-- C10, amended: after outlier rejection a wall is non-empty exactly when one of its
members lies within `1` of the centroid of the wall, and `findHole` produces a target (the
boundary lookups `wall2[0]` and `wall1.back()` are in range) exactly when both walls are
non-empty. -/
theorem retainedWalls_ne_nil_iff (m : Libm K) (fuel : Nat) (cloud : List (Point32 K))
    (w : Walls K) (h : assignToWalls m fuel cloud ⟨[], [], [], []⟩ = .ok w) :
    ((retainedWalls m w).1 ≠ [] ↔ ∃ p ∈ toPoints w.wall1x w.wall1y,
        distance m p (recomputeCentroid w.wall1x w.wall1y) ≤ 1) ∧
    ((retainedWalls m w).2 ≠ [] ↔ ∃ p ∈ toPoints w.wall2x w.wall2y,
        distance m p (recomputeCentroid w.wall2x w.wall2y) ≤ 1) ∧
    ((∃ t, findHole m fuel cloud = .ok t) ↔
      (retainedWalls m w).1 ≠ [] ∧ (retainedWalls m w).2 ≠ []) := by
  refine ⟨?_, ?_, ?_⟩
  · simp [retainedWalls, eraseFar_eq_filter, List.filter_eq_nil_iff]
  · simp [retainedWalls, eraseFar_eq_filter, List.filter_eq_nil_iff]
  · rw [findHole_of_ok m fuel cloud w h]
    exact holeCenter_ok_iff _ _

/-- Witness for the amended C10 on the cloud `(0, 0), (0, 1), (5, 0)`. -/
theorem retainedWalls_ne_nil_iff_witness :
    assignToWalls (⟨Real.sqrt, fun y x => Complex.arg ⟨x, y⟩⟩ : Libm ℝ) 2
      [⟨0, 0, 0⟩, ⟨0, 1, 0⟩, ⟨5, 0, 0⟩] ⟨[], [], [], []⟩ =
      .ok ⟨[0, 0], [0, 1], [5], [0]⟩ ∧
    ((retainedWalls (⟨Real.sqrt, fun y x => Complex.arg ⟨x, y⟩⟩ : Libm ℝ)
      ⟨[0, 0], [0, 1], [5], [0]⟩).1 ≠ [] ↔
      ∃ p ∈ toPoints [(0 : ℝ), 0] [0, 1],
        distance (⟨Real.sqrt, fun y x => Complex.arg ⟨x, y⟩⟩ : Libm ℝ)
          p (recomputeCentroid [0, 0] [0, 1]) ≤ 1) ∧
    ((retainedWalls (⟨Real.sqrt, fun y x => Complex.arg ⟨x, y⟩⟩ : Libm ℝ)
      ⟨[0, 0], [0, 1], [5], [0]⟩).2 ≠ [] ↔
      ∃ p ∈ toPoints [(5 : ℝ)] [0], distance (⟨Real.sqrt, fun y x => Complex.arg ⟨x, y⟩⟩ : Libm ℝ)
        p (recomputeCentroid [5] [0]) ≤ 1) ∧
    ((∃ t, findHole (⟨Real.sqrt, fun y x => Complex.arg ⟨x, y⟩⟩ : Libm ℝ) 2
      [⟨0, 0, 0⟩, ⟨0, 1, 0⟩, ⟨5, 0, 0⟩] = .ok t) ↔
      (retainedWalls (⟨Real.sqrt, fun y x => Complex.arg ⟨x, y⟩⟩ : Libm ℝ)
        ⟨[0, 0], [0, 1], [5], [0]⟩).1 ≠ [] ∧
        (retainedWalls (⟨Real.sqrt, fun y x => Complex.arg ⟨x, y⟩⟩ : Libm ℝ)
          ⟨[0, 0], [0, 1], [5], [0]⟩).2 ≠ []) :=
  ⟨by norm_num [assignToWalls, assignLoop, assignPoints, recomputeCentroid,
        distance_lt_distance_iff real_exact],
    retainedWalls_ne_nil_iff (⟨Real.sqrt, fun y x => Complex.arg ⟨x, y⟩⟩ : Libm ℝ) 2
      [⟨0, 0, 0⟩, ⟨0, 1, 0⟩, ⟨5, 0, 0⟩] ⟨[0, 0], [0, 1], [5], [0]⟩
      (by norm_num [assignToWalls, assignLoop, assignPoints, recomputeCentroid,
        distance_lt_distance_iff real_exact])⟩

/-- Counterexample to C11 as stated: on the cloud of two copies of `(1, 2)` the loop
returns an empty wall 1, `findHole` goes on to the boundary lookup `wall1.back()` on the
empty wall, and the only fault of the run is that out-of-range read. -/
theorem identical_points_reach_empty_lookup :
    (∀ fuel : Nat,
      assignToWalls (⟨Real.sqrt, fun y x => Complex.arg ⟨x, y⟩⟩ : Libm ℝ) (fuel + 1)
        [⟨1, 2, 0⟩, ⟨1, 2, 0⟩] ⟨[], [], [], []⟩ = .ok ⟨[], [], [1, 1], [2, 2]⟩) ∧
    (retainedWalls (⟨Real.sqrt, fun y x => Complex.arg ⟨x, y⟩⟩ : Libm ℝ) ⟨[], [], [1, 1], [2, 2]⟩).1.getLast? = none ∧
    (∀ fuel : Nat,
      findHole (⟨Real.sqrt, fun y x => Complex.arg ⟨x, y⟩⟩ : Libm ℝ) (fuel + 1) [⟨1, 2, 0⟩, ⟨1, 2, 0⟩] = .error .emptyAccess) := by
  have hno : ∀ p ∈ ([⟨1, 2, 0⟩, ⟨1, 2, 0⟩] : List (Point32 ℝ)),
      ¬ distance (⟨Real.sqrt, fun y x => Complex.arg ⟨x, y⟩⟩ : Libm ℝ) p ⟨1, 2, 0⟩ < distance (⟨Real.sqrt, fun y x => Complex.arg ⟨x, y⟩⟩ : Libm ℝ) p ⟨1, 2, 0⟩ :=
    fun _ _ => lt_irrefl _
  have hw := fun fuel : Nat => assignToWalls_of_no_nearer (⟨Real.sqrt, fun y x => Complex.arg ⟨x, y⟩⟩ : Libm ℝ) fuel
    [⟨1, 2, 0⟩, ⟨1, 2, 0⟩] ⟨1, 2, 0⟩ ⟨1, 2, 0⟩ rfl rfl hno
  refine ⟨hw, rfl, ?_⟩
  intro fuel
  rw [findHole_of_ok _ _ _ _ (hw fuel), retainedWalls_nil_left]
  exact holeCenter_nil_left _

/-- C11, amended: for a non-empty cloud in which no point is strictly nearer to the first
point than to the last point, as when all points are identical, `assignToWalls` returns
after one pass with wall 1 empty and wall 2 holding every point, wall 1 is still empty
after outlier rejection, and `findHole` reads `wall1.back()` on the empty wall: the run
ends in that out-of-range read, with no target and no command. -/
theorem findHole_degenerate (m : Libm K) (fuel : Nat) (cloud : List (Point32 K))
    (first last : Point32 K) (h1 : cloud.head? = some first) (h2 : cloud.getLast? = some last)
    (hno : ∀ p ∈ cloud, ¬ distance m p first < distance m p last) :
    assignToWalls m (fuel + 1) cloud ⟨[], [], [], []⟩ =
      .ok ⟨[], [], cloud.map Point32.x, cloud.map Point32.y⟩ ∧
    (retainedWalls m ⟨[], [], cloud.map Point32.x, cloud.map Point32.y⟩).1 = [] ∧
    findHole m (fuel + 1) cloud = .error .emptyAccess ∧
    commandFor m (fuel + 1) cloud = .error .emptyAccess := by
  have hw := assignToWalls_of_no_nearer m fuel cloud first last h1 h2 hno
  have hf : findHole m (fuel + 1) cloud = .error .emptyAccess := by
    rw [findHole_of_ok m (fuel + 1) cloud _ hw, retainedWalls_nil_left]
    exact holeCenter_nil_left _
  refine ⟨hw, rfl, hf, ?_⟩
  unfold commandFor
  rw [hf]

/-- Witness for the amended C11 on the cloud of two copies of `(3, 1)`. -/
theorem findHole_degenerate_witness :
    ([⟨3, 1, 0⟩, ⟨3, 1, 0⟩] : List (Point32 ℝ)).head? = some ⟨3, 1, 0⟩ ∧
    ([⟨3, 1, 0⟩, ⟨3, 1, 0⟩] : List (Point32 ℝ)).getLast? = some ⟨3, 1, 0⟩ ∧
    (∀ p ∈ ([⟨3, 1, 0⟩, ⟨3, 1, 0⟩] : List (Point32 ℝ)),
      ¬ distance (⟨Real.sqrt, fun y x => Complex.arg ⟨x, y⟩⟩ : Libm ℝ) p ⟨3, 1, 0⟩ < distance (⟨Real.sqrt, fun y x => Complex.arg ⟨x, y⟩⟩ : Libm ℝ) p ⟨3, 1, 0⟩) ∧
    assignToWalls (⟨Real.sqrt, fun y x => Complex.arg ⟨x, y⟩⟩ : Libm ℝ) (0 + 1) [⟨3, 1, 0⟩, ⟨3, 1, 0⟩] ⟨[], [], [], []⟩ =
      .ok ⟨[], [], ([⟨3, 1, 0⟩, ⟨3, 1, 0⟩] : List (Point32 ℝ)).map Point32.x,
        ([⟨3, 1, 0⟩, ⟨3, 1, 0⟩] : List (Point32 ℝ)).map Point32.y⟩ ∧
    (retainedWalls (⟨Real.sqrt, fun y x => Complex.arg ⟨x, y⟩⟩ : Libm ℝ)
      ⟨[], [], ([⟨3, 1, 0⟩, ⟨3, 1, 0⟩] : List (Point32 ℝ)).map Point32.x,
        ([⟨3, 1, 0⟩, ⟨3, 1, 0⟩] : List (Point32 ℝ)).map Point32.y⟩).1 = [] ∧
    findHole (⟨Real.sqrt, fun y x => Complex.arg ⟨x, y⟩⟩ : Libm ℝ) (0 + 1) [⟨3, 1, 0⟩, ⟨3, 1, 0⟩] = .error .emptyAccess ∧
    commandFor (⟨Real.sqrt, fun y x => Complex.arg ⟨x, y⟩⟩ : Libm ℝ) (0 + 1) [⟨3, 1, 0⟩, ⟨3, 1, 0⟩] = .error .emptyAccess :=
  ⟨rfl, rfl, fun _ _ => lt_irrefl _,
    findHole_degenerate (⟨Real.sqrt, fun y x => Complex.arg ⟨x, y⟩⟩ : Libm ℝ) 0 [⟨3, 1, 0⟩, ⟨3, 1, 0⟩] ⟨3, 1, 0⟩ ⟨3, 1, 0⟩ rfl rfl
      (fun _ _ => lt_irrefl _)⟩

/-- Counterexample to C12 as stated: on the empty cloud no error precedes the seeding of
the centroids; the run ends, without a pass of the loop, in the out-of-range read
`cloud.points.back()` of the seeding itself, and that is its only fault. -/
theorem empty_cloud_no_guard :
    ([] : List (Point32 ℝ)).getLast? = none ∧
    assignToWalls (⟨Real.sqrt, fun y x => Complex.arg ⟨x, y⟩⟩ : Libm ℝ) 0 [] ⟨[], [], [], []⟩ = .error .emptyAccess ∧
    (∀ e : Fault, assignToWalls (⟨Real.sqrt, fun y x => Complex.arg ⟨x, y⟩⟩ : Libm ℝ) 0 [] ⟨[], [], [], []⟩ = .error e → e = .emptyAccess) := by
  refine ⟨rfl, rfl, ?_⟩
  intro e he
  have h : (Except.error Fault.emptyAccess : Except Fault (Walls ℝ)) = .error e := he
  injection h with h
  exact h.symm

/-- C12, amended: on the empty cloud the pipeline has no check: `assignToWalls` starts by
seeding `centroid2` from `cloud.points.back()`, an out-of-range read of the empty vector,
before any pass of the loop (for every amount of fuel, zero included); the run ends in
that read, and neither `findHole` nor the callback produces a target or a command. -/
theorem empty_cloud_reads_out_of_range (m : Libm K) (fuel : Nat) (w : Walls K) :
    assignToWalls m fuel [] w = .error .emptyAccess ∧
    findHole m fuel [] = .error .emptyAccess ∧
    commandFor m fuel [] = .error .emptyAccess :=
  ⟨rfl, rfl, rfl⟩

/-- C13: for every target the command of `moveToHole` has `linear.y`, `linear.z`,
`angular.x` and `angular.y` equal to `0`, on the normal and on the Stop branch. -/
theorem moveToHole_other_axes_zero (m : Libm K) (center : Point32 K) :
    (moveToHole m center).linear.y = 0 ∧ (moveToHole m center).linear.z = 0 ∧
    (moveToHole m center).angular.x = 0 ∧ (moveToHole m center).angular.y = 0 := by
  by_cases h : m.sqrt (center.x ^ 2 + center.y ^ 2) < 1 / 1000
  · rw [moveToHole_of_lt m center h]
    exact ⟨rfl, rfl, rfl, rfl⟩
  · rw [moveToHole_of_not_lt m center h]
    exact ⟨rfl, rfl, rfl, rfl⟩

/-- C14: a pass of the assignment loop with centroids `centroid1`, `centroid2` sends to
wall 1 exactly the points strictly nearer to `centroid1`, and to wall 2 the points that are
nearer to `centroid2` or equidistant, in scan order; every pass of the `while` loop is such
a pass with the current centroids, the next centroids being recomputed from its walls; and
the loop starts with `centroid1` at the first and `centroid2` at the last point. -/
theorem assignPoints_nearest (m : Libm K) (centroid1 centroid2 : Point32 K)
    (cloud : List (Point32 K)) :
    (assignPoints m centroid1 centroid2 cloud ⟨[], [], [], []⟩).wall1x =
      (cloud.filter (fun p => decide (distance m p centroid1 < distance m p centroid2))).map
        Point32.x ∧
    (assignPoints m centroid1 centroid2 cloud ⟨[], [], [], []⟩).wall1y =
      (cloud.filter (fun p => decide (distance m p centroid1 < distance m p centroid2))).map
        Point32.y ∧
    (assignPoints m centroid1 centroid2 cloud ⟨[], [], [], []⟩).wall2x =
      (cloud.filter (fun p => decide (distance m p centroid2 ≤ distance m p centroid1))).map
        Point32.x ∧
    (assignPoints m centroid1 centroid2 cloud ⟨[], [], [], []⟩).wall2y =
      (cloud.filter (fun p => decide (distance m p centroid2 ≤ distance m p centroid1))).map
        Point32.y ∧
    (∀ (fuel : Nat) (pre_wall1x pre_wall1y : List K) (w : Walls K),
      (pre_wall1x ≠ w.wall1x ∨ pre_wall1y ≠ w.wall1y) →
        assignLoop m cloud (fuel + 1) centroid1 centroid2 pre_wall1x pre_wall1y w =
          assignLoop m cloud fuel
            (recomputeCentroid (assignPoints m centroid1 centroid2 cloud ⟨[], [], [], []⟩).wall1x
              (assignPoints m centroid1 centroid2 cloud ⟨[], [], [], []⟩).wall1y)
            (recomputeCentroid (assignPoints m centroid1 centroid2 cloud ⟨[], [], [], []⟩).wall2x
              (assignPoints m centroid1 centroid2 cloud ⟨[], [], [], []⟩).wall2y)
            w.wall1x w.wall1y (assignPoints m centroid1 centroid2 cloud ⟨[], [], [], []⟩)) ∧
    (∀ (fuel : Nat) (w : Walls K) (first last : Point32 K),
      cloud.head? = some first → cloud.getLast? = some last →
        assignToWalls m fuel cloud w = assignLoop m cloud fuel first last [0] [0] w) := by
  have hfil : cloud.filter (fun p => !nearer m centroid1 centroid2 p) =
      cloud.filter (fun p => decide (distance m p centroid2 ≤ distance m p centroid1)) := by
    apply List.filter_congr
    intro p _
    unfold nearer
    by_cases hlt : distance m p centroid1 < distance m p centroid2
    · simp [hlt, not_le.mpr hlt]
    · simp [hlt, not_lt.mp hlt]
  refine ⟨?_, ?_, ?_, ?_, ?_, ?_⟩
  · rw [assignPoints_eq]; rfl
  · rw [assignPoints_eq]; rfl
  · rw [assignPoints_eq, hfil]; rfl
  · rw [assignPoints_eq, hfil]; rfl
  · intro fuel px py w hc
    rw [assignLoop_succ, if_pos hc]
    rfl
  · intro fuel w first last h1 h2
    unfold assignToWalls
    rw [h1, h2]

/-- C15: when `assignToWalls` returns, each wall is a subsequence of the cloud: its planar
points, and each of its coordinate vectors, are a sublist of those of the cloud, so two
members of a wall keep the relative order of their scan indices. -/
theorem assignToWalls_subsequence (m : Libm K) (fuel : Nat) (cloud : List (Point32 K))
    (w : Walls K) (h : assignToWalls m fuel cloud ⟨[], [], [], []⟩ = .ok w) :
    List.Sublist (toPoints w.wall1x w.wall1y) (cloud.map flatten) ∧
    List.Sublist (toPoints w.wall2x w.wall2y) (cloud.map flatten) ∧
    List.Sublist w.wall1x (cloud.map Point32.x) ∧ List.Sublist w.wall1y (cloud.map Point32.y) ∧
    List.Sublist w.wall2x (cloud.map Point32.x) ∧ List.Sublist w.wall2y (cloud.map Point32.y) := by
  obtain ⟨d1, d2, rfl⟩ := assignToWalls_ok_cases m fuel cloud w h
  rw [assignStep_eq]
  simp only [wallsOf, toPoints_map]
  exact ⟨(List.filter_sublist _).map _, (List.filter_sublist _).map _,
    (List.filter_sublist _).map _, (List.filter_sublist _).map _,
    (List.filter_sublist _).map _, (List.filter_sublist _).map _⟩

/-- Witness for C15 on the cloud `(0, 0), (1, 1), (4, 0)`. -/
theorem assignToWalls_subsequence_witness :
    assignToWalls (⟨Real.sqrt, fun y x => Complex.arg ⟨x, y⟩⟩ : Libm ℝ) 2 [⟨0, 0, 0⟩, ⟨1, 1, 0⟩, ⟨4, 0, 0⟩] ⟨[], [], [], []⟩ =
      .ok ⟨[0, 1], [0, 1], [4], [0]⟩ ∧
    List.Sublist (toPoints [(0 : ℝ), 1] [0, 1])
      (([⟨0, 0, 0⟩, ⟨1, 1, 0⟩, ⟨4, 0, 0⟩] : List (Point32 ℝ)).map flatten) ∧
    List.Sublist (toPoints [(4 : ℝ)] [0])
      (([⟨0, 0, 0⟩, ⟨1, 1, 0⟩, ⟨4, 0, 0⟩] : List (Point32 ℝ)).map flatten) ∧
    List.Sublist [(0 : ℝ), 1]
      (([⟨0, 0, 0⟩, ⟨1, 1, 0⟩, ⟨4, 0, 0⟩] : List (Point32 ℝ)).map Point32.x) ∧
    List.Sublist [(0 : ℝ), 1]
      (([⟨0, 0, 0⟩, ⟨1, 1, 0⟩, ⟨4, 0, 0⟩] : List (Point32 ℝ)).map Point32.y) ∧
    List.Sublist [(4 : ℝ)]
      (([⟨0, 0, 0⟩, ⟨1, 1, 0⟩, ⟨4, 0, 0⟩] : List (Point32 ℝ)).map Point32.x) ∧
    List.Sublist [(0 : ℝ)]
      (([⟨0, 0, 0⟩, ⟨1, 1, 0⟩, ⟨4, 0, 0⟩] : List (Point32 ℝ)).map Point32.y) :=
  ⟨by norm_num [assignToWalls, assignLoop, assignPoints, recomputeCentroid,
        distance_lt_distance_iff real_exact],
    assignToWalls_subsequence (⟨Real.sqrt, fun y x => Complex.arg ⟨x, y⟩⟩ : Libm ℝ) 2
      [⟨0, 0, 0⟩, ⟨1, 1, 0⟩, ⟨4, 0, 0⟩] ⟨[0, 1], [0, 1], [4], [0]⟩
      (by norm_num [assignToWalls, assignLoop, assignPoints, recomputeCentroid,
        distance_lt_distance_iff real_exact])⟩

/-- C16: for a non-empty planar cloud, in exact arithmetic, the walls that `assignToWalls`
returns have an empty wall exactly when the first and the last point of the cloud are the
same point; in that case wall 1 is empty and wall 2 holds every point; otherwise both walls
are non-empty at the end of every pass of the loop, and the walls returned are those at the
end of one of the passes. -/
theorem assignToWalls_empty_wall_iff (m : Libm K) (hm : m.Exact) (cloud : List (Point32 K))
    (first last : Point32 K) (h1 : cloud.head? = some first) (h2 : cloud.getLast? = some last)
    (hz : ∀ p ∈ cloud, p.z = 0) :
    (∀ (fuel : Nat) (w : Walls K), assignToWalls m fuel cloud ⟨[], [], [], []⟩ = .ok w →
      ((w.wall1x = [] ∨ w.wall2x = []) ↔ first = last)) ∧
    (first = last → ∀ (fuel : Nat) (w : Walls K),
      assignToWalls m fuel cloud ⟨[], [], [], []⟩ = .ok w →
        w = ⟨[], [], cloud.map Point32.x, cloud.map Point32.y⟩) ∧
    (first ≠ last → ∀ k : Nat,
      (passWalls m cloud first last k).wall1x ≠ [] ∧
      (passWalls m cloud first last k).wall2x ≠ []) ∧
    (∀ (fuel : Nat) (w : Walls K), assignToWalls m fuel cloud ⟨[], [], [], []⟩ = .ok w →
      ∃ k, w = passWalls m cloud first last k) := by
  have hf : first ∈ cloud := List.mem_of_mem_head? h1
  have hl : last ∈ cloud := List.mem_of_getLast?_eq_some h2
  have hdeg : first = last → ∀ (fuel : Nat) (w : Walls K),
      assignToWalls m fuel cloud ⟨[], [], [], []⟩ = .ok w →
        w = ⟨[], [], cloud.map Point32.x, cloud.map Point32.y⟩ := by
    intro heq fuel w hw
    have hno : ∀ p ∈ cloud, ¬ distance m p first < distance m p last := by
      intro p _
      rw [heq]
      exact lt_irrefl _
    have h0 := assignToWalls_of_no_nearer m fuel cloud first last h1 h2 hno
    have h3 := assignToWalls_fuel_mono m cloud fuel (fuel + 1) (Nat.le_succ _) _ _ hw
    rw [h0] at h3
    injection h3 with h3
    exact h3.symm
  have hinh : first ≠ last → ∀ k : Nat,
      (passWalls m cloud first last k).wall1x ≠ [] ∧
      (passWalls m cloud first last k).wall2x ≠ [] := by
    intro hne k
    obtain ⟨_, hk1, hk2⟩ := passes_inhabited hm cloud first last hf hl hne
      (by rw [hz first hf, hz last hl]) k
    rw [passWalls_eq]
    simp only [wallsOf, ne_eq, List.map_eq_nil_iff]
    exact ⟨hk1, hk2⟩
  have hret := fun (fuel : Nat) (w : Walls K) =>
    assignToWalls_returns_pass m fuel cloud first last h1 h2 w
  refine ⟨?_, hdeg, hinh, hret⟩
  intro fuel w hw
  constructor
  · intro hemp
    by_contra hne
    obtain ⟨k, rfl⟩ := hret fuel w hw
    obtain ⟨hk1, hk2⟩ := hinh hne k
    rcases hemp with h | h
    · exact hk1 h
    · exact hk2 h
  · intro heq
    left
    rw [hdeg heq fuel w hw]

/-- Witness for C16 on the cloud `(0, 0), (1, 0), (5, 0)`. -/
theorem assignToWalls_empty_wall_iff_witness :
    Libm.Exact (⟨Real.sqrt, fun y x => Complex.arg ⟨x, y⟩⟩ : Libm ℝ) ∧
    ([⟨0, 0, 0⟩, ⟨1, 0, 0⟩, ⟨5, 0, 0⟩] : List (Point32 ℝ)).head? = some ⟨0, 0, 0⟩ ∧
    ([⟨0, 0, 0⟩, ⟨1, 0, 0⟩, ⟨5, 0, 0⟩] : List (Point32 ℝ)).getLast? = some ⟨5, 0, 0⟩ ∧
    (∀ p ∈ ([⟨0, 0, 0⟩, ⟨1, 0, 0⟩, ⟨5, 0, 0⟩] : List (Point32 ℝ)), p.z = 0) ∧
    (∀ (fuel : Nat) (w : Walls ℝ),
      assignToWalls (⟨Real.sqrt, fun y x => Complex.arg ⟨x, y⟩⟩ : Libm ℝ) fuel [⟨0, 0, 0⟩, ⟨1, 0, 0⟩, ⟨5, 0, 0⟩] ⟨[], [], [], []⟩ = .ok w →
        ((w.wall1x = [] ∨ w.wall2x = []) ↔ (⟨0, 0, 0⟩ : Point32 ℝ) = ⟨5, 0, 0⟩)) ∧
    ((⟨0, 0, 0⟩ : Point32 ℝ) = ⟨5, 0, 0⟩ → ∀ (fuel : Nat) (w : Walls ℝ),
      assignToWalls (⟨Real.sqrt, fun y x => Complex.arg ⟨x, y⟩⟩ : Libm ℝ) fuel [⟨0, 0, 0⟩, ⟨1, 0, 0⟩, ⟨5, 0, 0⟩] ⟨[], [], [], []⟩ = .ok w →
        w = ⟨[], [], ([⟨0, 0, 0⟩, ⟨1, 0, 0⟩, ⟨5, 0, 0⟩] : List (Point32 ℝ)).map Point32.x, ([⟨0, 0, 0⟩, ⟨1, 0, 0⟩, ⟨5, 0, 0⟩] : List (Point32 ℝ)).map Point32.y⟩) ∧
    ((⟨0, 0, 0⟩ : Point32 ℝ) ≠ ⟨5, 0, 0⟩ → ∀ k : Nat,
      (passWalls (⟨Real.sqrt, fun y x => Complex.arg ⟨x, y⟩⟩ : Libm ℝ) [⟨0, 0, 0⟩, ⟨1, 0, 0⟩, ⟨5, 0, 0⟩] ⟨0, 0, 0⟩ ⟨5, 0, 0⟩ k).wall1x ≠ [] ∧
      (passWalls (⟨Real.sqrt, fun y x => Complex.arg ⟨x, y⟩⟩ : Libm ℝ) [⟨0, 0, 0⟩, ⟨1, 0, 0⟩, ⟨5, 0, 0⟩] ⟨0, 0, 0⟩ ⟨5, 0, 0⟩ k).wall2x ≠ []) ∧
    (∀ (fuel : Nat) (w : Walls ℝ),
      assignToWalls (⟨Real.sqrt, fun y x => Complex.arg ⟨x, y⟩⟩ : Libm ℝ) fuel [⟨0, 0, 0⟩, ⟨1, 0, 0⟩, ⟨5, 0, 0⟩] ⟨[], [], [], []⟩ = .ok w →
        ∃ k, w = passWalls (⟨Real.sqrt, fun y x => Complex.arg ⟨x, y⟩⟩ : Libm ℝ) [⟨0, 0, 0⟩, ⟨1, 0, 0⟩, ⟨5, 0, 0⟩] ⟨0, 0, 0⟩ ⟨5, 0, 0⟩ k) := by
  have hz : ∀ p ∈ ([⟨0, 0, 0⟩, ⟨1, 0, 0⟩, ⟨5, 0, 0⟩] : List (Point32 ℝ)), p.z = 0 := by
    intro p hp
    simp only [List.mem_cons, List.mem_singleton, List.not_mem_nil, or_false] at hp
    rcases hp with rfl | rfl | rfl <;> rfl
  exact ⟨real_exact, rfl, rfl, hz,
    assignToWalls_empty_wall_iff (⟨Real.sqrt, fun y x => Complex.arg ⟨x, y⟩⟩ : Libm ℝ) real_exact [⟨0, 0, 0⟩, ⟨1, 0, 0⟩, ⟨5, 0, 0⟩]
      ⟨0, 0, 0⟩ ⟨5, 0, 0⟩ rfl rfl hz⟩

/-- C17: the centroid loops never divide by zero: with every division by `wallx.size()`
checked, the loops of `assignToWalls` and `findHole` produce the same centroid and no
check fails, because a division is made only for a member of the wall; for an empty wall
no division is made and the centroid stays `(0, 0, 0)`. -/
theorem recomputeCentroid_no_zero_division (wallx wally : List K) :
    recomputeCentroidChecked wallx wally = some (recomputeCentroid wallx wally) ∧
    recomputeCentroid ([] : List K) wally = ⟨0, 0, 0⟩ := by
  refine ⟨?_, rfl⟩
  unfold recomputeCentroidChecked recomputeCentroid
  cases wallx with
  | nil => rfl
  | cons a as =>
    apply foldlM_checked
    simp only [List.length_cons]
    exact_mod_cast Nat.succ_ne_zero as.length

/-- Counterexample to C18 as stated: the scan with the single valid reading `1` has no run
of NaN readings, and `findGaps` returns the one entry `0`; the scan `1, NaN` has one run,
of length `1`, and `findGaps` returns the two entries `0, 1`. -/
theorem findGaps_leading_zero :
    findGaps ([some 1] : List (Option ℚ)) = [0] ∧
    nanRuns ([some 1] : List (Option ℚ)) = [] ∧
    findGaps ([some 1, none] : List (Option ℚ)) = [0, 1] ∧
    nanRuns ([some 1, none] : List (Option ℚ)) = [1] := by
  refine ⟨rfl, ?_, rfl, ?_⟩
  · rw [nanRuns_some, nanRuns_nil]
  · rw [nanRuns_some, nanRuns_none, List.dropWhile_nil, nanRuns_nil]
    rfl

/-- C18, amended: `findGaps` returns the number of NaN readings at the start of the scan
followed by the lengths of the later maximal runs of consecutive NaN readings, in scan
order.  For a scan that starts with a NaN reading this is one entry per maximal run, each
entry the length of its run; for a scan that starts with a valid reading it is the entry
`0` followed by one entry per maximal run, and for the empty scan it is the entry `0`. -/
theorem findGaps_eq_runs {α : Type} (ranges rs : List (Option α)) (a : α) :
    findGaps ranges =
      (ranges.takeWhile Option.isNone).length ::
        nanRuns (ranges.dropWhile Option.isNone) ∧
    findGaps (none :: rs) = nanRuns (none :: rs) ∧
    findGaps (some a :: rs) = 0 :: nanRuns (some a :: rs) ∧
    findGaps ([] : List (Option α)) = [0] := by
  refine ⟨findGaps_eq_lead _, ?_, ?_, rfl⟩
  · rw [findGaps_eq_lead, nanRuns_none]
    simp
  · rw [findGaps_eq_lead, nanRuns_some]
    simp [nanRuns_some]

/-- Counterexample to C19 as stated: on the wall `(1, 3), (2, 4)` the call with
`left = true` returns the last element `(2, 4)`, not the first, and the call with
`left = false` returns the first element `(1, 3)`, not the last. -/
theorem findBoundaryPoint_left_is_last :
    findBoundaryPoint ([1, 2] : List ℚ) [3, 4] true = .ok ⟨2, 4, 0⟩ ∧
    findBoundaryPoint ([1, 2] : List ℚ) [3, 4] false = .ok ⟨1, 3, 0⟩ ∧
    (toPoints ([1, 2] : List ℚ) [3, 4]).head? = some ⟨1, 3, 0⟩ ∧
    (toPoints ([1, 2] : List ℚ) [3, 4]).getLast? = some ⟨2, 4, 0⟩ ∧
    (⟨2, 4, 0⟩ : Point32 ℚ) ≠ ⟨1, 3, 0⟩ := by
  refine ⟨rfl, rfl, rfl, rfl, ?_⟩
  intro h
  injection h with hx
  norm_num at hx

/-- C19, amended: for non-empty walls `findBoundaryPoint` with `left = true` returns the
last element of the wall, the point `findHole` reads as `wall1.back()`, and with
`left = false` it returns the first element, the point `findHole` reads as `wall2[0]`;
both have `z = 0`, and the target of `findHole` is the midpoint of the two. -/
theorem findBoundaryPoint_convention (wall1x wall1y wall2x wall2y : List K)
    (h1 : wall1x.length = wall1y.length) (h2 : wall2x.length = wall2y.length)
    (hne1 : wall1x ≠ []) (hne2 : wall2x ≠ []) :
    ∃ p1 p2 : Point32 K,
      (toPoints wall1x wall1y).getLast? = some p1 ∧
      findBoundaryPoint wall1x wall1y true = .ok p1 ∧
      (toPoints wall2x wall2y).head? = some p2 ∧
      findBoundaryPoint wall2x wall2y false = .ok p2 ∧
      p1.z = 0 ∧ p2.z = 0 ∧
      holeCenter (toPoints wall1x wall1y) (toPoints wall2x wall2y) =
        .ok ⟨(p2.x + p1.x) / 2, (p2.y + p1.y) / 2, 0⟩ := by
  have hne1y : wall1y ≠ [] := by
    intro h; rw [h] at h1; exact hne1 (List.length_eq_zero.mp h1)
  have hne2y : wall2y ≠ [] := by
    intro h; rw [h] at h2; exact hne2 (List.length_eq_zero.mp h2)
  obtain ⟨x1, hx1⟩ : ∃ x, wall1x.getLast? = some x := by
    cases hq : wall1x.getLast? with
    | none => exact absurd (List.getLast?_eq_none_iff.mp hq) hne1
    | some x => exact ⟨x, rfl⟩
  obtain ⟨y1, hy1⟩ : ∃ y, wall1y.getLast? = some y := by
    cases hq : wall1y.getLast? with
    | none => exact absurd (List.getLast?_eq_none_iff.mp hq) hne1y
    | some y => exact ⟨y, rfl⟩
  obtain ⟨x2, hx2⟩ : ∃ x, wall2x.head? = some x := by
    cases hq : wall2x.head? with
    | none => exact absurd (List.head?_eq_none_iff.mp hq) hne2
    | some x => exact ⟨x, rfl⟩
  obtain ⟨y2, hy2⟩ : ∃ y, wall2y.head? = some y := by
    cases hq : wall2y.head? with
    | none => exact absurd (List.head?_eq_none_iff.mp hq) hne2y
    | some y => exact ⟨y, rfl⟩
  have hl : (toPoints wall1x wall1y).getLast? = some ⟨x1, y1, 0⟩ := by
    rw [toPoints_getLast? wall1x wall1y h1, hx1, hy1]
  have hh : (toPoints wall2x wall2y).head? = some ⟨x2, y2, 0⟩ := by
    rw [toPoints_head?, hx2, hy2]
  refine ⟨⟨x1, y1, 0⟩, ⟨x2, y2, 0⟩, hl, ?_, hh, ?_, rfl, rfl, ?_⟩
  · unfold findBoundaryPoint
    rw [hx1, hy1]
    rfl
  · unfold findBoundaryPoint
    rw [hx2, hy2]
    rfl
  · unfold holeCenter
    rw [hl, hh]

/-- Witness for the amended C19 on the walls `(1, 3), (2, 4)` and `(5, 6)`. -/
theorem findBoundaryPoint_convention_witness :
    ([1, 2] : List ℚ).length = ([3, 4] : List ℚ).length ∧
    ([5] : List ℚ).length = ([6] : List ℚ).length ∧
    ([1, 2] : List ℚ) ≠ [] ∧ ([5] : List ℚ) ≠ [] ∧
    ∃ p1 p2 : Point32 ℚ,
      (toPoints ([1, 2] : List ℚ) [3, 4]).getLast? = some p1 ∧
      findBoundaryPoint ([1, 2] : List ℚ) [3, 4] true = .ok p1 ∧
      (toPoints ([5] : List ℚ) [6]).head? = some p2 ∧
      findBoundaryPoint ([5] : List ℚ) [6] false = .ok p2 ∧
      p1.z = 0 ∧ p2.z = 0 ∧
      holeCenter (toPoints ([1, 2] : List ℚ) [3, 4]) (toPoints ([5] : List ℚ) [6]) =
        .ok ⟨(p2.x + p1.x) / 2, (p2.y + p1.y) / 2, 0⟩ :=
  ⟨rfl, rfl, by simp, by simp,
    findBoundaryPoint_convention [1, 2] [3, 4] [5] [6] rfl rfl (by simp) (by simp)⟩

end GoThroughHole
